import Mathlib

/-!
# JsonWebToken: a shallow embedding of `src/JsonWebToken.cpp`

The token codec of the repository (`JsonWebToken::encode`, `decode` and their
helpers) is embedded as pure functions over an explicit instance state; a
method that changes the instance returns the instance afterwards.

The codec calls Qt classes that are not part of the repository:

* `QByteArray` searching and slicing, its base64 codec, and the HMAC
  construction of `QMessageAuthenticationCode` are modelled here, because
  the behaviour of the codec depends on what exactly they do;
* the hash functions and the JSON writer and parser are parameters
  (`Collaborators`): the theorems hold for every choice of them, under the
  contract stated in each theorem. The worked examples use SHA-2 and a
  reference JSON writer and parser (`refCollaborators`).
-/

namespace JWT

/-! ## Byte arrays -/

/-- One `char` of a `QByteArray`, read as an unsigned value. -/
abbrev Byte := Fin 256

/-- A `QByteArray`: a finite sequence of bytes. Sizes and positions are `int`
in Qt; a byte array never exceeds that range, so positions are integers here
and the arithmetic on them does not wrap. -/
abbrev QByteArray := List Byte

/-- The bytes of an ASCII text literal. -/
def ascii (s : String) : QByteArray :=
  s.toList.map (fun c => Fin.ofNat c.toNat)

/-- Scan of `QByteArray::indexOf`: the index of the first `ch` in `l`, where
`l` starts at index `i` of the array; `-1` when there is none. -/
def indexOfScan (ch : Byte) : List Byte → Nat → Int
  | [], _ => -1
  | b :: t, i => if b = ch then (i : Int) else indexOfScan ch t (i + 1)

/-- Modelled from the spec: the Qt call `QByteArray::indexOf(char ch, int from)`, which is not
under src/: a negative `from`
counts from the end, a `from` past the end finds nothing. -/
def indexOf (l : QByteArray) (ch : Byte) (frm : Int) : Int :=
  let frm := if frm < 0 then max (frm + (l.length : Int)) 0 else frm
  if frm < (l.length : Int) then indexOfScan ch (l.drop frm.toNat) frm.toNat else -1

/-- Modelled from the spec: the Qt call `QByteArray::left(int len)`, which is not
under src/: the first `len` bytes, everything
when `len` is not smaller than the size, nothing when `len` is negative. -/
def left (l : QByteArray) (len : Int) : QByteArray :=
  if len ≥ (l.length : Int) then l else l.take len.toNat

/-- Modelled from the spec: the Qt call `QByteArray::right(int len)`, which is not
under src/: the last `len` bytes, everything
when `len` is not smaller than the size, nothing when `len` is negative. -/
def right (l : QByteArray) (len : Int) : QByteArray :=
  if len ≥ (l.length : Int) then l else l.drop (l.length - len.toNat)

/-- Modelled from the spec: the Qt call `QByteArray::mid(int pos, int len)`, which is not
under src/, with the clamping of
`QContainerImplHelper::mid`. -/
def mid (l : QByteArray) (pos len : Int) : QByteArray :=
  let size : Int := l.length
  if pos > size then []
  else if pos < 0 then
    if len < 0 ∨ len + pos ≥ size then l
    else if len + pos ≤ 0 then []
    else l.take (len + pos).toNat
  else if len < 0 ∨ len > size - pos then l.drop pos.toNat
  else (l.drop pos.toNat).take len.toNat

/-! ## Base64url (`QByteArray::toBase64` / `QByteArray::fromBase64`) -/

/-- The table `alphabet_base64url` of `QByteArray::toBase64`. -/
def alphabetBase64url : List Byte :=
  ascii "ABCDEFGHIJKLMNOPQRSTUVWXYZabcdefghijklmnopqrstuvwxyz0123456789-_"

/-- The character `alphabet[v]` written for the six-bit value `v`. -/
def alphabetAt (v : Nat) : Byte := alphabetBase64url.getD v 0

/-- Modelled from the spec: the base64url encoder (no padding) is the Qt call
`QByteArray::toBase64(Base64UrlEncoding | OmitTrailingEquals)`, which is not
under src/. Three bytes form a 24-bit chunk written as four characters; a
final group of one or two bytes is written as two or three characters and the
`=` padding is omitted. -/
def toBase64 : QByteArray → QByteArray
  | [] => []
  | [a] =>
    let chunk := a.val * 65536
    [alphabetAt (chunk / 262144 % 64), alphabetAt (chunk / 4096 % 64)]
  | [a, b] =>
    let chunk := a.val * 65536 + b.val * 256
    [alphabetAt (chunk / 262144 % 64), alphabetAt (chunk / 4096 % 64),
     alphabetAt (chunk / 64 % 64)]
  | a :: b :: c :: rest =>
    let chunk := a.val * 65536 + b.val * 256 + c.val
    alphabetAt (chunk / 262144 % 64) :: alphabetAt (chunk / 4096 % 64) ::
      alphabetAt (chunk / 64 % 64) :: alphabetAt (chunk % 64) :: toBase64 rest

/-- The six-bit value `d` that `QByteArray::fromBase64` assigns to a
character under `Base64UrlEncoding`; `none` stands for `d = -1`. -/
def base64Value (ch : Byte) : Option Nat :=
  if 65 ≤ ch.val ∧ ch.val ≤ 90 then some (ch.val - 65)
  else if 97 ≤ ch.val ∧ ch.val ≤ 122 then some (ch.val - 97 + 26)
  else if 48 ≤ ch.val ∧ ch.val ≤ 57 then some (ch.val - 48 + 52)
  else if ch.val = 45 then some 62
  else if ch.val = 95 then some 63
  else none

/-- The loop of `QByteArray::fromBase64`: `buf` collects six bits for each
alphabet character and a byte is written whenever eight bits are available;
a character outside the alphabet is skipped. -/
def fromBase64Loop (buf nbits : Nat) : List Byte → QByteArray
  | [] => []
  | ch :: rest =>
    match base64Value ch with
    | none => fromBase64Loop buf nbits rest
    | some d =>
      let buf := buf * 64 + d
      let nbits := nbits + 6
      if nbits ≥ 8 then
        let nbits := nbits - 8
        Fin.ofNat (buf / 2 ^ nbits) :: fromBase64Loop (buf % 2 ^ nbits) nbits rest
      else fromBase64Loop buf nbits rest

/-- Modelled from the spec: the base64url decoder is the Qt call
`QByteArray::fromBase64(data, Base64UrlEncoding)`, which is not under src/.
It has no error result: input is not checked for validity, characters
outside the alphabet are skipped and trailing bits that do not fill a byte
are dropped. -/
def fromBase64 (data : QByteArray) : QByteArray := fromBase64Loop 0 0 data

/-! ## Keyed hashing (`QMessageAuthenticationCode`) -/

/-- The members of `QCryptographicHash::Algorithm` the codec uses. -/
inductive HashAlgorithm where
  | Sha256
  | Sha384
  | Sha512
  deriving DecidableEq, Repr

/-- The block size in bytes of each hash (`qt_hash_block_size`). -/
def hashBlockSize : HashAlgorithm → Nat
  | .Sha256 => 64
  | .Sha384 => 128
  | .Sha512 => 128

/-- Exclusive-or of a key byte with a pad constant. -/
def xorByte (c : Nat) (b : Byte) : Byte := Fin.ofNat (b.val ^^^ c)

/-- Modelled from the spec: the HMAC primitive is the Qt call
`QMessageAuthenticationCode::hash(message, key, method)`, which is not under
src/. It is the HMAC construction over the hash function `hash` with block
size `blockSize`: a key longer than a block is replaced by its digest, a
shorter key is filled with zero bytes up to the block size, and the result is
`hash((key ^ 0x5c) + hash((key ^ 0x36) + message))`. -/
def hmac (hash : QByteArray → QByteArray) (blockSize : Nat)
    (message key : QByteArray) : QByteArray :=
  let key := if key.length > blockSize then hash key else key
  let key := key ++ List.replicate (blockSize - key.length) (0 : Byte)
  hash (key.map (xorByte 0x5c) ++ hash (key.map (xorByte 0x36) ++ message))

/-! ## SHA-2 (`QCryptographicHash`)

The hash functions behind `QCryptographicHash::Sha256`, `Sha384` and `Sha512`
are those of FIPS 180-4. They serve as the hash collaborator of the worked
examples. -/

/-- The round constants of SHA-256: the first 32 bits of the fractional parts
of the cube roots of the first 64 primes. -/
def sha256K : List Nat :=
  [1116352408, 1899447441, 3049323471, 3921009573, 961987163, 1508970993,
   2453635748, 2870763221, 3624381080, 310598401, 607225278, 1426881987,
   1925078388, 2162078206, 2614888103, 3248222580, 3835390401, 4022224774,
   264347078, 604807628, 770255983, 1249150122, 1555081692, 1996064986,
   2554220882, 2821834349, 2952996808, 3210313671, 3336571891, 3584528711,
   113926993, 338241895, 666307205, 773529912, 1294757372, 1396182291,
   1695183700, 1986661051, 2177026350, 2456956037, 2730485921, 2820302411,
   3259730800, 3345764771, 3516065817, 3600352804, 4094571909, 275423344,
   430227734, 506948616, 659060556, 883997877, 958139571, 1322822218,
   1537002063, 1747873779, 1955562222, 2024104815, 2227730452, 2361852424,
   2428436474, 2756734187, 3204031479, 3329325298]

/-- The initial hash value of SHA-256. -/
def sha256Init : List Nat :=
  [1779033703, 3144134277, 1013904242, 2773480762, 1359893119, 2600822924,
   528734635, 1541459225]

/-- The round constants of SHA-384 and SHA-512: the first 64 bits of the
fractional parts of the cube roots of the first 80 primes. -/
def sha512K : List Nat :=
  [4794697086780616226, 8158064640168781261, 13096744586834688815, 16840607885511220156,
   4131703408338449720, 6480981068601479193, 10538285296894168987, 12329834152419229976,
   15566598209576043074, 1334009975649890238, 2608012711638119052, 6128411473006802146,
   8268148722764581231, 9286055187155687089, 11230858885718282805, 13951009754708518548,
   16472876342353939154, 17275323862435702243, 1135362057144423861, 2597628984639134821,
   3308224258029322869, 5365058923640841347, 6679025012923562964, 8573033837759648693,
   10970295158949994411, 12119686244451234320, 12683024718118986047, 13788192230050041572,
   14330467153632333762, 15395433587784984357, 489312712824947311, 1452737877330783856,
   2861767655752347644, 3322285676063803686, 5560940570517711597, 5996557281743188959,
   7280758554555802590, 8532644243296465576, 9350256976987008742, 10552545826968843579,
   11727347734174303076, 12113106623233404929, 14000437183269869457, 14369950271660146224,
   15101387698204529176, 15463397548674623760, 17586052441742319658, 1182934255886127544,
   1847814050463011016, 2177327727835720531, 2830643537854262169, 3796741975233480872,
   4115178125766777443, 5681478168544905931, 6601373596472566643, 7507060721942968483,
   8399075790359081724, 8693463985226723168, 9568029438360202098, 10144078919501101548,
   10430055236837252648, 11840083180663258601, 13761210420658862357, 14299343276471374635,
   14566680578165727644, 15097957966210449927, 16922976911328602910, 17689382322260857208,
   500013540394364858, 748580250866718886, 1242879168328830382, 1977374033974150939,
   2944078676154940804, 3659926193048069267, 4368137639120453308, 4836135668995329356,
   5532061633213252278, 6448918945643986474, 6902733635092675308, 7801388544844847127]

/-- The initial hash value of SHA-512. -/
def sha512Init : List Nat :=
  [7640891576956012808, 13503953896175478587, 4354685564936845355, 11912009170470909681,
   5840696475078001361, 11170449401992604703, 2270897969802886507, 6620516959819538809]

/-- The initial hash value of SHA-384. -/
def sha384Init : List Nat :=
  [14680500436340154072, 7105036623409894663, 10473403895298186519, 1526699215303891257,
   7436329637833083697, 10282925794625328401, 15784041429090275239, 5167115440072839076]

/-- The parameters that tell the SHA-2 functions apart: the word size in
bits, the round constants, the initial hash value, the rotation and shift
amounts of the four sigma functions, and the digest length in bytes. -/
structure Sha2Params where
  wordBits : Nat
  k : List Nat
  init : List Nat
  bigSigma0 : Nat × Nat × Nat
  bigSigma1 : Nat × Nat × Nat
  smallSigma0 : Nat × Nat × Nat
  smallSigma1 : Nat × Nat × Nat
  digestBytes : Nat

/-- The parameters of SHA-256. -/
def sha256Params : Sha2Params :=
  ⟨32, sha256K, sha256Init, (2, 13, 22), (6, 11, 25), (7, 18, 3), (17, 19, 10), 32⟩

/-- The parameters of SHA-384. -/
def sha384Params : Sha2Params :=
  ⟨64, sha512K, sha384Init, (28, 34, 39), (14, 18, 41), (1, 8, 7), (19, 61, 6), 48⟩

/-- The parameters of SHA-512. -/
def sha512Params : Sha2Params :=
  ⟨64, sha512K, sha512Init, (28, 34, 39), (14, 18, 41), (1, 8, 7), (19, 61, 6), 64⟩

/-- Rotation of a `w`-bit word to the right by `n` bits. -/
def rotr (w x n : Nat) : Nat := ((x >>> n) ||| (x <<< (w - n))) % 2 ^ w

/-- The functions `Σ0` and `Σ1`: exclusive-or of three rotations. -/
def sha2BigSigma (w : Nat) (r : Nat × Nat × Nat) (x : Nat) : Nat :=
  rotr w x r.1 ^^^ rotr w x r.2.1 ^^^ rotr w x r.2.2

/-- The functions `σ0` and `σ1`: exclusive-or of two rotations and a shift. -/
def sha2SmallSigma (w : Nat) (r : Nat × Nat × Nat) (x : Nat) : Nat :=
  rotr w x r.1 ^^^ rotr w x r.2.1 ^^^ (x >>> r.2.2)

/-- The big-endian value of a sequence of bytes. -/
def bytesToNat (l : List Byte) : Nat := l.foldl (fun acc b => acc * 256 + b.val) 0

/-- The `n` big-endian bytes of a number. -/
def natToBytes : Nat → Nat → List Byte
  | 0, _ => []
  | n + 1, x => Fin.ofNat (x / 256 ^ n) :: natToBytes n x

/-- Cuts a sequence into pieces of `n + 1` elements; `fuel` bounds the number
of pieces. -/
def chunksOf {α : Type} (n : Nat) : Nat → List α → List (List α)
  | 0, _ => []
  | fuel + 1, l => if l.isEmpty then [] else l.take (n + 1) :: chunksOf n fuel (l.drop (n + 1))

/-- The padded message: the byte `0x80`, zero bytes up to the place of the
length field, and the length in bits, so that the whole is a number of
blocks. A block has 16 words and the length field 2. -/
def sha2Pad (P : Sha2Params) (message : List Byte) : List Byte :=
  let wordBytes := P.wordBits / 8
  let blockBytes := 16 * wordBytes
  let lengthBytes := 2 * wordBytes
  let used := (message.length + 1 + lengthBytes) % blockBytes
  let zeros := if used = 0 then 0 else blockBytes - used
  message ++ [(0x80 : Byte)] ++ List.replicate zeros (0 : Byte) ++
    natToBytes lengthBytes (message.length * 8)

/-- Extends the message schedule by `n` words; `ws` holds the words so far,
last first. -/
def sha2Extend (P : Sha2Params) : Nat → List Nat → List Nat
  | 0, ws => ws
  | n + 1, ws =>
    let w := (sha2SmallSigma P.wordBits P.smallSigma1 (ws.getD 1 0) + ws.getD 6 0 +
      sha2SmallSigma P.wordBits P.smallSigma0 (ws.getD 14 0) + ws.getD 15 0) % 2 ^ P.wordBits
    sha2Extend P n (w :: ws)

/-- One round of the compression function on the working variables
`a` to `h`, with the round constant and the schedule word. -/
def sha2Round (P : Sha2Params) (s : List Nat) (kw : Nat × Nat) : List Nat :=
  match s with
  | [a, b, c, d, e, f, g, h] =>
    let m := 2 ^ P.wordBits
    let ch := (e &&& f) ^^^ ((m - 1 - e) &&& g)
    let maj := (a &&& b) ^^^ (a &&& c) ^^^ (b &&& c)
    let t1 := (h + sha2BigSigma P.wordBits P.bigSigma1 e + ch + kw.1 + kw.2) % m
    let t2 := (sha2BigSigma P.wordBits P.bigSigma0 a + maj) % m
    [(t1 + t2) % m, a, b, c, (d + t1) % m, e, f, g]
  | _ => s

/-- The compression function: the hash value after one more block. -/
def sha2Compress (P : Sha2Params) (hash : List Nat) (block : List Byte) : List Nat :=
  let words := (chunksOf (P.wordBits / 8 - 1) 16 block).map bytesToNat
  let schedule := (sha2Extend P (P.k.length - 16) words.reverse).reverse
  let final := (P.k.zip schedule).foldl (sha2Round P) hash
  List.zipWith (fun x y => (x + y) % 2 ^ P.wordBits) hash final

/-- The SHA-2 digest of a message for the given parameters. -/
def sha2 (P : Sha2Params) (message : List Byte) : List Byte :=
  let padded := sha2Pad P message
  let blocks := chunksOf (16 * (P.wordBits / 8) - 1) padded.length padded
  let hash := blocks.foldl (sha2Compress P) P.init
  ((hash.map (natToBytes (P.wordBits / 8))).flatten).take P.digestBytes

/-- Modelled from the spec: the hash functions SHA-256, SHA-384 and SHA-512
are the Qt class `QCryptographicHash`, which is not under src/. -/
def refHash : HashAlgorithm → QByteArray → QByteArray
  | .Sha256 => sha2 sha256Params
  | .Sha384 => sha2 sha384Params
  | .Sha512 => sha2 sha512Params

/-! ## JSON values (`QJsonValue`, `QJsonObject`, `QJsonDocument`) -/

/-- A `QJsonValue`. Qt stores a number as an IEEE double; floating point is
outside this embedding and the model carries the integral numbers. An object
is kept as `QJsonObject` keeps it: members in ascending key order, one per
key. -/
inductive QJsonValue where
  | null
  | bool (b : Bool)
  | double (d : Int)
  | string (s : String)
  | array (a : List QJsonValue)
  | object (o : List (String × QJsonValue))
  | undefined

/-- A `QJsonObject`: the members of an object, in ascending key order. -/
structure QJsonObject where
  members : List (String × QJsonValue)

/-- Modelled from the spec: the Qt call `QJsonValue::toString()`, which is not
under src/: the text of a string value, the empty
text for a value of any other type. -/
def QJsonValue.toString : QJsonValue → String
  | .string s => s
  | _ => ""

/-- Modelled from the spec: the Qt call `QJsonValue::isUndefined()`, which is not
under src/. -/
def QJsonValue.isUndefined : QJsonValue → Bool
  | .undefined => true
  | _ => false

/-- The UTF-16 code units of a character, as a `QString` stores them. -/
def utf16Units (c : Char) : List Nat :=
  if c.toNat < 0x10000 then [c.toNat]
  else [0xD800 + (c.toNat - 0x10000) / 1024, 0xDC00 + (c.toNat - 0x10000) % 1024]

/-- Lexicographic order on sequences of code units. -/
def codeUnitsLt : List Nat → List Nat → Bool
  | _, [] => false
  | [], _ :: _ => true
  | a :: s, b :: t => if a < b then true else if a = b then codeUnitsLt s t else false

/-- Modelled from the spec: the Qt call `operator<` on `QString`, which is not
under src/, the order in which `QJsonObject` keeps
its keys: lexicographic on the code units. -/
def qstringLt (a b : String) : Bool :=
  codeUnitsLt (a.toList.flatMap utf16Units) (b.toList.flatMap utf16Units)

/-- Ordered insertion of a member: an existing member of that key is
replaced, a new one goes to its place in key order. -/
def insertEntry (key : String) (value : QJsonValue) :
    List (String × QJsonValue) → List (String × QJsonValue)
  | [] => [(key, value)]
  | (k, w) :: t =>
    if qstringLt key k then (key, value) :: (k, w) :: t
    else if key = k then (key, value) :: t
    else (k, w) :: insertEntry key value t

namespace QJsonObject

/-- The constructor `QJsonObject()`: the empty object. -/
def empty : QJsonObject := ⟨[]⟩

/-- Modelled from the spec: the Qt call `QJsonObject::remove(key)`, which is not
under src/. -/
def remove (o : QJsonObject) (key : String) : QJsonObject :=
  ⟨o.members.filter (fun e => e.1 ≠ key)⟩

/-- Modelled from the spec: the Qt call `QJsonObject::insert(key, value)`, which is not
under src/: inserting the undefined value
removes the key. -/
def insert (o : QJsonObject) (key : String) (value : QJsonValue) : QJsonObject :=
  if value.isUndefined then o.remove key else ⟨insertEntry key value o.members⟩

/-- Modelled from the spec: the Qt call `QJsonObject::value(key)`, which is not
under src/: the member's value, the undefined
value when there is no such member. -/
def value (o : QJsonObject) (key : String) : QJsonValue :=
  match o.members.find? (fun e => e.1 = key) with
  | some e => e.2
  | none => .undefined

/-- Modelled from the spec: the Qt call `QJsonObject::contains(key)`, which is not
under src/. -/
def contains (o : QJsonObject) (key : String) : Bool :=
  o.members.any (fun e => e.1 = key)

/-- Modelled from the spec: the Qt call `QJsonObject::keys()`, which is not
under src/. -/
def keys (o : QJsonObject) : List String := o.members.map (fun e => e.1)

end QJsonObject

/-- A `QJsonDocument` that holds a value: an object or an array. -/
inductive QJsonDocument where
  | object (o : QJsonObject)
  | array (a : List QJsonValue)

/-! ## Collaborators taken as parameters -/

/-- The Qt collaborators whose implementation is outside the repository and
is not modelled: the hash functions behind `QCryptographicHash`, and the JSON
writer and parser of `QJsonDocument` (`toJson(Compact)`, and `fromJson`
with `none` for a parse error). -/
structure Collaborators where
  hash : HashAlgorithm → QByteArray → QByteArray
  toJson : QJsonDocument → QByteArray
  fromJson : QByteArray → Option QJsonDocument

/-! ## The codec (`src/JsonWebToken.cpp`) -/

/-- The constant `TokenSeparator`, the character `.`. -/
def TokenSeparator : Byte := 46

/-- The constant `KeyAlgorithm`. -/
def KeyAlgorithm : String := "alg"

/-- The constant `KeyType`. -/
def KeyType : String := "typ"

/-- The constant `TypeJwt`. -/
def TypeJwt : String := "JWT"

/-- The enumeration `JsonWebToken::Algorithm`. -/
inductive Algorithm where
  | None
  | Hs256
  | Hs384
  | Hs512
  deriving DecidableEq, Repr

/-- The state of a `JsonWebToken` instance. -/
structure JsonWebToken where
  m_algorithm : Algorithm
  m_key : QByteArray
  m_claims : QJsonObject

/-- The helper `base64encode`. -/
def base64encode (data : QByteArray) : QByteArray := toBase64 data

/-- The helper `base64decode`. -/
def base64decode (data : QByteArray) : QByteArray := fromBase64 data

/-- The helper `makeJson`. -/
def makeJson (E : Collaborators) (object : QJsonObject) : QByteArray :=
  E.toJson (.object object)

/-- The helper `parseJson`: the parsed object and the flag `ok`; on a parse
error or a document that is not an object, an empty object and `false`. -/
def parseJson (E : Collaborators) (data : QByteArray) : QJsonObject × Bool :=
  match E.fromJson data with
  | some (.object o) => (o, true)
  | _ => (QJsonObject.empty, false)

/-- The default constructor `JsonWebToken::JsonWebToken()`. -/
def JsonWebToken.new : JsonWebToken := ⟨.None, [], QJsonObject.empty⟩

/-- The constructor `JsonWebToken::JsonWebToken(algorithm, key)`. -/
def JsonWebToken.mk2 (algorithm : Algorithm) (key : QByteArray) : JsonWebToken :=
  ⟨algorithm, key, QJsonObject.empty⟩

namespace JsonWebToken

/-- The method `setAlgorithm`. -/
def setAlgorithm (t : JsonWebToken) (algorithm : Algorithm) : JsonWebToken :=
  { t with m_algorithm := algorithm }

/-- The method `algorithm`. -/
def algorithm (t : JsonWebToken) : Algorithm := t.m_algorithm

/-- The method `setKey`. -/
def setKey (t : JsonWebToken) (key : QByteArray) : JsonWebToken :=
  { t with m_key := key }

/-- The method `key`. -/
def key (t : JsonWebToken) : QByteArray := t.m_key

/-- The method `addClaim`. -/
def addClaim (t : JsonWebToken) (name : String) (value : QJsonValue) : JsonWebToken :=
  { t with m_claims := t.m_claims.insert name value }

/-- The method `claim`. -/
def claim (t : JsonWebToken) (name : String) : QJsonValue := t.m_claims.value name

/-- The method `claims`. -/
def claims (t : JsonWebToken) : List String := t.m_claims.keys

/-- The method `contains`. -/
def contains (t : JsonWebToken) (name : String) : Bool := t.m_claims.contains name

/-- The method `algorithmName`. -/
def algorithmName (t : JsonWebToken) : String :=
  match t.m_algorithm with
  | .Hs256 => "HS256"
  | .Hs384 => "HS384"
  | .Hs512 => "HS512"
  | _ => "none"

/-- The method `setAlgorithmByName`: the returned flag and the instance
afterwards. -/
def setAlgorithmByName (t : JsonWebToken) (name : String) : Bool × JsonWebToken :=
  if name = "HS256" then (true, { t with m_algorithm := .Hs256 })
  else if name = "HS384" then (true, { t with m_algorithm := .Hs384 })
  else if name = "HS512" then (true, { t with m_algorithm := .Hs512 })
  else if name = "none" then (true, { t with m_algorithm := .None })
  else (false, t)

/-- The method `encrypt`. -/
def encrypt (E : Collaborators) (t : JsonWebToken) (data : QByteArray) : QByteArray :=
  if t.m_algorithm = .Hs256 then
    hmac (E.hash .Sha256) (hashBlockSize .Sha256) data t.m_key
  else if t.m_algorithm = .Hs384 then
    hmac (E.hash .Sha384) (hashBlockSize .Sha384) data t.m_key
  else if t.m_algorithm = .Hs512 then
    hmac (E.hash .Sha512) (hashBlockSize .Sha512) data t.m_key
  else []

/-- The method `encode`. -/
def encode (E : Collaborators) (t : JsonWebToken) : QByteArray :=
  let header : QJsonObject := QJsonObject.empty
  let header := header.insert KeyAlgorithm (.string t.algorithmName)
  let header := header.insert KeyType (.string TypeJwt)
  let data := base64encode (makeJson E header)
  let data := (data ++ [TokenSeparator]) ++ base64encode (makeJson E t.m_claims)
  let signature := base64encode (t.encrypt E data)
  let data := (data ++ [TokenSeparator]) ++ signature
  data

/-- The method `decodeHeader`: the returned flag and the instance
afterwards. -/
def decodeHeader (E : Collaborators) (t : JsonWebToken) (data : QByteArray) :
    Bool × JsonWebToken :=
  let (header, ok) := parseJson E (base64decode data)
  if !ok then (false, t)
  else if !header.contains KeyType ∨ (header.value KeyType).toString ≠ TypeJwt then (false, t)
  else if !header.contains KeyAlgorithm then (false, t)
  else
    let r := t.setAlgorithmByName (header.value KeyAlgorithm).toString
    if !r.1 then (false, r.2) else (true, r.2)

/-- The method `decodePayload`: the returned flag and the instance
afterwards. -/
def decodePayload (E : Collaborators) (t : JsonWebToken) (data : QByteArray) :
    Bool × JsonWebToken :=
  let (claims, ok) := parseJson E (base64decode data)
  (ok, { t with m_claims := claims })

/-- The method `validate`. -/
def validate (E : Collaborators) (t : JsonWebToken) (data signature : QByteArray) : Bool :=
  base64encode (t.encrypt E data) = signature

/-- The method `decode`: the returned flag and the instance afterwards. -/
def decode (E : Collaborators) (t : JsonWebToken) (token : QByteArray) :
    Bool × JsonWebToken :=
  let t := { t with m_claims := QJsonObject.empty }
  let pos1 := indexOf token TokenSeparator 0
  if pos1 = -1 then (false, t)
  else
    let pos2 := indexOf token TokenSeparator (pos1 + 1)
    if pos2 = -1 then (false, t)
    else
      let header := left token pos1
      let payload := mid token (pos1 + 1) (pos2 - pos1 - 1)
      let signature := right token ((token.length : Int) - pos2 - 1)
      let r := t.decodeHeader E header
      if !r.1 then (false, r.2)
      else
        let r := r.2.decodePayload E payload
        if !r.1 then (false, r.2)
        else (r.2.validate E (left token pos2) signature, r.2)

end JsonWebToken

/-! ## A reference JSON writer and parser

`refToJson` and `refFromJson` write and read compact JSON text (RFC 8259) for
the value model above, in the way `QJsonDocument` does for these values.
They serve as the JSON collaborator of the worked examples. -/

/-- The UTF-8 bytes of a character. -/
def utf8Encode (c : Char) : List Byte :=
  let v := c.toNat
  if v < 0x80 then [Fin.ofNat v]
  else if v < 0x800 then [Fin.ofNat (0xC0 + v / 64), Fin.ofNat (0x80 + v % 64)]
  else if v < 0x10000 then
    [Fin.ofNat (0xE0 + v / 4096), Fin.ofNat (0x80 + v / 64 % 64), Fin.ofNat (0x80 + v % 64)]
  else
    [Fin.ofNat (0xF0 + v / 262144), Fin.ofNat (0x80 + v / 4096 % 64),
     Fin.ofNat (0x80 + v / 64 % 64), Fin.ofNat (0x80 + v % 64)]

/-- The lower-case hexadecimal digit of a value below sixteen. -/
def hexDigit (v : Nat) : Byte := if v < 10 then Fin.ofNat (48 + v) else Fin.ofNat (87 + v)

/-- The text written for one character of a string (`escapedString` of the
Qt writer): quote, backslash and control characters are escaped, every other
character is written in UTF-8. -/
def refEscapeChar (c : Char) : List Byte :=
  let v := c.toNat
  if v = 0x22 then ascii "\\\""
  else if v = 0x5c then ascii "\\\\"
  else if v = 0x8 then ascii "\\b"
  else if v = 0xc then ascii "\\f"
  else if v = 0xa then ascii "\\n"
  else if v = 0xd then ascii "\\r"
  else if v = 0x9 then ascii "\\t"
  else if v < 0x20 then ascii "\\u00" ++ [hexDigit (v / 16), hexDigit (v % 16)]
  else utf8Encode c

/-- A string literal: the escaped characters between quotes. -/
def refWriteString (s : String) : List Byte :=
  [(34 : Byte)] ++ s.toList.flatMap refEscapeChar ++ [(34 : Byte)]

/-- The decimal text of an integral number. -/
def refWriteNumber (d : Int) : List Byte :=
  match d with
  | Int.ofNat n => ascii (String.mk (Nat.toDigits 10 n))
  | Int.negSucc n => (45 : Byte) :: ascii (String.mk (Nat.toDigits 10 (n + 1)))

mutual
/-- Compact text of a value. -/
def refWriteValue : QJsonValue → List Byte
  | .null => ascii "null"
  | .bool true => ascii "true"
  | .bool false => ascii "false"
  | .double d => refWriteNumber d
  | .string s => refWriteString s
  | .array a => [(91 : Byte)] ++ refWriteElements a ++ [(93 : Byte)]
  | .object o => [(123 : Byte)] ++ refWriteMembers o ++ [(125 : Byte)]
  | .undefined => ascii "null"
/-- Compact text of the elements of an array, separated by commas. -/
def refWriteElements : List QJsonValue → List Byte
  | [] => []
  | [v] => refWriteValue v
  | v :: w :: t => refWriteValue v ++ [(44 : Byte)] ++ refWriteElements (w :: t)
/-- Compact text of the members of an object, separated by commas. -/
def refWriteMembers : List (String × QJsonValue) → List Byte
  | [] => []
  | [(k, v)] => refWriteString k ++ [(58 : Byte)] ++ refWriteValue v
  | (k, v) :: e :: t =>
    refWriteString k ++ [(58 : Byte)] ++ refWriteValue v ++ [(44 : Byte)] ++
      refWriteMembers (e :: t)
end

/-- Modelled from the spec: the compact JSON writer is the Qt call
`QJsonDocument::toJson(Compact)`, which is not under src/. -/
def refToJson : QJsonDocument → QByteArray
  | .object o => refWriteValue (.object o.members)
  | .array a => refWriteValue (.array a)

/-- Skips JSON white space: space, tab, line feed, carriage return. -/
def refSkipSpace : List Byte → List Byte
  | [] => []
  | b :: t => if b = 32 ∨ b = 9 ∨ b = 10 ∨ b = 13 then refSkipSpace t else b :: t

/-- The value of a hexadecimal digit. -/
def hexValue (b : Byte) : Option Nat :=
  if 48 ≤ b.val ∧ b.val ≤ 57 then some (b.val - 48)
  else if 97 ≤ b.val ∧ b.val ≤ 102 then some (b.val - 87)
  else if 65 ≤ b.val ∧ b.val ≤ 70 then some (b.val - 55)
  else none

/-- Whether a byte is a UTF-8 continuation byte. -/
def isContinuation (b : Byte) : Bool := 0x80 ≤ b.val && b.val < 0xC0

/-- Reads one UTF-8 encoded character; `none` for an ill-formed sequence. -/
def utf8Decode : List Byte → Option (Char × List Byte)
  | [] => none
  | b0 :: t =>
    if b0.val < 0x80 then some (Char.ofNat b0.val, t)
    else if 0xC2 ≤ b0.val ∧ b0.val < 0xE0 then
      match t with
      | b1 :: t =>
        if isContinuation b1 then
          some (Char.ofNat ((b0.val - 0xC0) * 64 + (b1.val - 0x80)), t)
        else none
      | _ => none
    else if 0xE0 ≤ b0.val ∧ b0.val < 0xF0 then
      match t with
      | b1 :: b2 :: t =>
        let v := (b0.val - 0xE0) * 4096 + (b1.val - 0x80) * 64 + (b2.val - 0x80)
        if isContinuation b1 ∧ isContinuation b2 ∧ 0x800 ≤ v ∧ ¬ (0xD800 ≤ v ∧ v < 0xE000) then
          some (Char.ofNat v, t)
        else none
      | _ => none
    else if 0xF0 ≤ b0.val ∧ b0.val < 0xF5 then
      match t with
      | b1 :: b2 :: b3 :: t =>
        let v := (b0.val - 0xF0) * 262144 + (b1.val - 0x80) * 4096 + (b2.val - 0x80) * 64 +
          (b3.val - 0x80)
        if isContinuation b1 ∧ isContinuation b2 ∧ isContinuation b3 ∧ 0x10000 ≤ v ∧
            v < 0x110000 then
          some (Char.ofNat v, t)
        else none
      | _ => none
    else none

/-- Reads the four hexadecimal digits of a `\u` escape. A surrogate code
unit has no counterpart among the characters of the model and is reported as
an error. -/
def refParseHex4 : List Byte → Option (Char × List Byte)
  | h1 :: h2 :: h3 :: h4 :: t =>
    match hexValue h1, hexValue h2, hexValue h3, hexValue h4 with
    | some a, some b, some c, some d =>
      let v := a * 4096 + b * 256 + c * 16 + d
      if 0xD800 ≤ v ∧ v < 0xE000 then none else some (Char.ofNat v, t)
    | _, _, _, _ => none
  | _ => none

/-- Reads a string literal after its opening quote; `acc` holds the
characters read so far, last first. -/
def refParseString : Nat → List Byte → List Char → Option (String × List Byte)
  | 0, _, _ => none
  | fuel + 1, data, acc =>
    match data with
    | [] => none
    | b :: t =>
      if b = 34 then some (String.mk acc.reverse, t)
      else if b = 92 then
        match t with
        | [] => none
        | e :: t2 =>
          if e = 34 then refParseString fuel t2 ('"' :: acc)
          else if e = 92 then refParseString fuel t2 ('\\' :: acc)
          else if e = 47 then refParseString fuel t2 ('/' :: acc)
          else if e = 98 then refParseString fuel t2 (Char.ofNat 8 :: acc)
          else if e = 102 then refParseString fuel t2 (Char.ofNat 12 :: acc)
          else if e = 110 then refParseString fuel t2 ('\n' :: acc)
          else if e = 114 then refParseString fuel t2 ('\r' :: acc)
          else if e = 116 then refParseString fuel t2 ('\t' :: acc)
          else if e = 117 then
            match refParseHex4 t2 with
            | some (c, t3) => refParseString fuel t3 (c :: acc)
            | none => none
          else none
      else
        match utf8Decode (b :: t) with
        | some (c, rest) => refParseString fuel rest (c :: acc)
        | none => none

/-- Reads a run of decimal digits: their value and the rest of the input. -/
def refParseDigits : List Byte → Nat → Nat × List Byte
  | [], n => (n, [])
  | b :: t, n =>
    if 48 ≤ b.val ∧ b.val ≤ 57 then refParseDigits t (n * 10 + (b.val - 48)) else (n, b :: t)

/-- Whether the input goes on with a fraction or an exponent. -/
def refFractionAhead : List Byte → Bool
  | b :: _ => b = 46 || b = 101 || b = 69
  | [] => false

/-- Reads an integral number: an optional minus sign, then `0` or a run of
digits that does not start with `0`. A fraction or exponent part denotes a
number outside the value model and is reported as an error. -/
def refParseNumber (data : List Byte) : Option (Int × List Byte) :=
  let (neg, body) :=
    match data with
    | b :: t => if b = 45 then (true, t) else (false, b :: t)
    | [] => (false, [])
  match body with
  | [] => none
  | b :: t =>
    if ¬ (48 ≤ b.val ∧ b.val ≤ 57) then none
    else
      let (n, rest) := if b = 48 then (0, t) else refParseDigits (b :: t) 0
      if refFractionAhead rest then none
      else some (if neg then -(n : Int) else (n : Int), rest)

/-- Whether `pre` starts `data`; the rest of `data` when it does. -/
def refExpect (pre : List Byte) (data : List Byte) : Option (List Byte) :=
  if pre.isPrefixOf data then some (data.drop pre.length) else none

mutual
/-- Reads a value. `depth` counts the enclosing arrays and objects, which the
Qt parser limits to 1024. -/
def refParseValue : Nat → Nat → List Byte → Option (QJsonValue × List Byte)
  | 0, _, _ => none
  | fuel + 1, depth, data =>
    match data with
    | [] => none
    | b :: t =>
      if b = 123 then
        if depth + 1 > 1024 then none
        else
          match refSkipSpace t with
          | [] => none
          | c :: t2 =>
            if c = 125 then some (.object [], t2)
            else
              match refParseMembers fuel (depth + 1) (c :: t2) [] with
              | some (o, rest) => some (.object o, rest)
              | none => none
      else if b = 91 then
        if depth + 1 > 1024 then none
        else
          match refSkipSpace t with
          | [] => none
          | c :: t2 =>
            if c = 93 then some (.array [], t2)
            else
              match refParseElements fuel (depth + 1) (c :: t2) [] with
              | some (a, rest) => some (.array a, rest)
              | none => none
      else if b = 34 then
        match refParseString (t.length + 1) t [] with
        | some (s, rest) => some (.string s, rest)
        | none => none
      else if b = 116 then (refExpect (ascii "true") data).map (fun r => (.bool true, r))
      else if b = 102 then (refExpect (ascii "false") data).map (fun r => (.bool false, r))
      else if b = 110 then (refExpect (ascii "null") data).map (fun r => (.null, r))
      else
        match refParseNumber data with
        | some (d, rest) => some (.double d, rest)
        | none => none
/-- Reads the elements of an array up to and including the closing bracket;
`acc` holds the elements read so far, last first. -/
def refParseElements : Nat → Nat → List Byte → List QJsonValue →
    Option (List QJsonValue × List Byte)
  | 0, _, _, _ => none
  | fuel + 1, depth, data, acc =>
    match refParseValue fuel depth data with
    | none => none
    | some (v, rest) =>
      match refSkipSpace rest with
      | [] => none
      | c :: t =>
        if c = 93 then some ((v :: acc).reverse, t)
        else if c = 44 then refParseElements fuel depth (refSkipSpace t) (v :: acc)
        else none
/-- Reads the members of an object up to and including the closing brace;
`acc` is the object built so far. A key that occurs again replaces the
earlier member. -/
def refParseMembers : Nat → Nat → List Byte → List (String × QJsonValue) →
    Option (List (String × QJsonValue) × List Byte)
  | 0, _, _, _ => none
  | fuel + 1, depth, data, acc =>
    match data with
    | [] => none
    | q :: t =>
      if q ≠ 34 then none
      else
        match refParseString (t.length + 1) t [] with
        | none => none
        | some (k, rest) =>
          match refSkipSpace rest with
          | [] => none
          | c :: t2 =>
            if c ≠ 58 then none
            else
              match refParseValue fuel depth (refSkipSpace t2) with
              | none => none
              | some (v, rest2) =>
                match refSkipSpace rest2 with
                | [] => none
                | d :: t3 =>
                  if d = 125 then some (insertEntry k v acc, t3)
                  else if d = 44 then
                    refParseMembers fuel depth (refSkipSpace t3) (insertEntry k v acc)
                  else none
end

/-- Modelled from the spec: the JSON parser is the Qt call
`QJsonDocument::fromJson`, which is not under src/. The text must hold one
array or object, with nothing but white space around it; `none` stands for a
parse error. -/
def refFromJson (data : QByteArray) : Option QJsonDocument :=
  match refParseValue (data.length + 1) 0 (refSkipSpace data) with
  | some (.object o, rest) => if refSkipSpace rest = [] then some (.object ⟨o⟩) else none
  | some (.array a, rest) => if refSkipSpace rest = [] then some (.array a) else none
  | _ => none

/-- The collaborators used in the worked examples. -/
def refCollaborators : Collaborators := ⟨refHash, refToJson, refFromJson⟩

/-! ## Auxiliary definitions used to state the properties -/

/-- The characters of the unpadded base64url alphabet: `A`-`Z`, `a`-`z`,
`0`-`9`, `-` and `_`. -/
def isBase64urlChar (c : Byte) : Bool :=
  (65 ≤ c.val && c.val ≤ 90) || (97 ≤ c.val && c.val ≤ 122) || (48 ≤ c.val && c.val ≤ 57) ||
    c.val = 45 || c.val = 95

/-- Splits a byte sequence at its first separator: the bytes before it and
the bytes after it; `none` when it has no separator. -/
def splitAtSeparator : QByteArray → Option (QByteArray × QByteArray)
  | [] => none
  | b :: t =>
    if b = TokenSeparator then some ([], t)
    else
      match splitAtSeparator t with
      | some (h, r) => some (b :: h, r)
      | none => none

/-- The three segments of a token: the bytes before the first separator, the
bytes between the first and the second, and everything after the second;
`none` when the token has fewer than two separators. -/
def splitToken (token : QByteArray) : Option (QByteArray × QByteArray × QByteArray) :=
  match splitAtSeparator token with
  | none => none
  | some (h, r) =>
    match splitAtSeparator r with
    | none => none
    | some (p, s) => some (h, p, s)

/-- The three phases of `decode` on the segments of a token: header phase,
payload phase, validation over `header + "." + payload`. -/
def decodePhases (E : Collaborators) (t : JsonWebToken) (header payload signature : QByteArray) :
    Bool × JsonWebToken :=
  let r := t.decodeHeader E header
  if !r.1 then (false, r.2)
  else
    let r := r.2.decodePayload E payload
    if !r.1 then (false, r.2)
    else (r.2.validate E (header ++ TokenSeparator :: payload) signature, r.2)

/-- The header object that `encode` builds for an algorithm. -/
def headerObject (a : Algorithm) : QJsonObject :=
  (QJsonObject.empty.insert KeyAlgorithm
    (.string (JsonWebToken.algorithmName ⟨a, [], QJsonObject.empty⟩))).insert KeyType
      (.string TypeJwt)

/-- The algorithm a header name stands for, `none` for any other name. -/
def algorithmOfName (name : String) : Option Algorithm :=
  if name = "HS256" then some .Hs256
  else if name = "HS384" then some .Hs384
  else if name = "HS512" then some .Hs512
  else if name = "none" then some .None
  else none

/-- The number of separators in a byte sequence. -/
def separatorCount (l : QByteArray) : Nat := l.count TokenSeparator

/-- The contract of the JSON collaborator at one object: parsing the compact
text written for the object gives the object back. -/
def ReadsBack (E : Collaborators) (o : QJsonObject) : Prop :=
  E.fromJson (E.toJson (.object o)) = some (.object o)

/-- The text `encode` signs for an algorithm and a claim set: the encoded
header and the encoded claims, joined by the separator. -/
def signingInput (E : Collaborators) (a : Algorithm) (c : QJsonObject) : QByteArray :=
  base64encode (makeJson E (headerObject a)) ++
    TokenSeparator :: base64encode (makeJson E c)

/-- The algorithm that the header phase adopts for a header segment: the
segment must decode and parse to an object with a `typ` member that reads
`JWT` and an `alg` member that names an algorithm; `none` when the header
phase fails. -/
def headerAlgorithm (E : Collaborators) (header : QByteArray) : Option Algorithm :=
  let r := parseJson E (base64decode header)
  if r.2 = true ∧ r.1.contains KeyType = true ∧ (r.1.value KeyType).toString = TypeJwt ∧
      r.1.contains KeyAlgorithm = true then
    algorithmOfName (r.1.value KeyAlgorithm).toString
  else none

/-- The claims that the worked examples encode:
`{"sub":"1234567890","name":"John Doe","admin":true}`. -/
def exampleClaims : QJsonObject :=
  ((QJsonObject.empty.insert "sub" (.string "1234567890")).insert "name"
    (.string "John Doe")).insert "admin" (.bool true)

/-- The header name of each algorithm, as the specification lists them. -/
def specAlgorithmName : Algorithm → String
  | .None => "none"
  | .Hs256 => "HS256"
  | .Hs384 => "HS384"
  | .Hs512 => "HS512"

/-- The hash function of each signing algorithm, as the specification lists
them: SHA-256, SHA-384 and SHA-512; algorithm None has none. -/
def specHashFor : Algorithm → Option HashAlgorithm
  | .None => none
  | .Hs256 => some .Sha256
  | .Hs384 => some .Sha384
  | .Hs512 => some .Sha512

/-- The token format in the specification's words: `D + "." + base64url(S)`,
where `D` is `base64url(compactJson({alg, typ}))`, a separator and
`base64url(compactJson(C))`, and `S` is the HMAC of `D` under the key with the
hash of the algorithm, or empty for algorithm None. -/
def specEncode (E : Collaborators) (a : Algorithm) (k : QByteArray) (c : QJsonObject) :
    QByteArray :=
  let d := toBase64 (E.toJson (.object
      ⟨[("alg", .string (specAlgorithmName a)), ("typ", .string "JWT")]⟩)) ++
    ascii "." ++ toBase64 (E.toJson (.object c))
  let s := match specHashFor a with
    | some m => hmac (E.hash m) (hashBlockSize m) d k
    | none => []
  d ++ ascii "." ++ toBase64 s

/-- A header object that names an algorithm the codec does not know. -/
def foreignHeader (name : String) : QJsonObject :=
  ⟨[("alg", .string name), ("typ", .string "JWT")]⟩

/-- The message authentication code in the specification's words: the HMAC
of the text under the key with the hash of the algorithm, and the empty byte
sequence for algorithm None. -/
def specMac (E : Collaborators) (a : Algorithm) (k : QByteArray) (d : QByteArray) : QByteArray :=
  match specHashFor a with
  | some m => hmac (E.hash m) (hashBlockSize m) d k
  | none => []

/-- The header checks on a parsed header object: a `typ` member whose value
is the string `JWT` and an `alg` member whose value is the string that names
the algorithm `a`. -/
def HeaderNames (o : QJsonObject) (a : Algorithm) : Prop :=
  o.contains KeyType = true ∧ o.value KeyType = .string TypeJwt ∧
    o.contains KeyAlgorithm = true ∧ o.value KeyAlgorithm = .string (specAlgorithmName a)

/-- The invariant of `QJsonObject`: the members are in strictly ascending key
order, so that no key occurs twice. The empty object has it and `insert` and
`remove` keep it. -/
def QJsonObject.WellFormed (o : QJsonObject) : Prop :=
  o.members.Pairwise (fun e f => qstringLt e.1 f.1 = true)

instance (o : QJsonObject) : Decidable o.WellFormed := by
  unfold QJsonObject.WellFormed
  infer_instance

/-- Arrays inside one another: `nestedArrays n` is `n + 1` arrays deep, the
innermost one empty. -/
def nestedArrays : Nat → QJsonValue
  | 0 => .array []
  | n + 1 => .array [nestedArrays n]

/-- An instance built with the constructor and one call of `addClaim`, whose
single claim `a` holds 1024 arrays inside one another. -/
def deepInstance (a : Algorithm) (k : QByteArray) : JsonWebToken :=
  (JsonWebToken.mk2 a k).addClaim "a" (nestedArrays 1023)

/-! ## Byte arrays: searching and slicing -/

theorem splitAtSeparator_none {l : QByteArray} :
    splitAtSeparator l = none ↔ TokenSeparator ∉ l := by
  induction l with
  | nil => simp [splitAtSeparator]
  | cons b t ih =>
    unfold splitAtSeparator
    by_cases hb : b = TokenSeparator
    · simp [hb]
    · simp only [hb, if_false]
      cases hs : splitAtSeparator t with
      | none =>
        have := ih.mp hs
        simp [this, Ne.symm hb]
      | some x =>
        obtain ⟨h, r⟩ := x
        have : ¬ TokenSeparator ∉ t := fun hc => by simp [ih.mpr hc] at hs
        simp at this
        simp [this]

theorem splitAtSeparator_some {l h r : QByteArray} (hs : splitAtSeparator l = some (h, r)) :
    l = h ++ TokenSeparator :: r ∧ TokenSeparator ∉ h := by
  induction l generalizing h with
  | nil => simp [splitAtSeparator] at hs
  | cons b t ih =>
    unfold splitAtSeparator at hs
    by_cases hb : b = TokenSeparator
    · simp only [hb, if_true, Option.some.injEq, Prod.mk.injEq] at hs
      obtain ⟨rfl, rfl⟩ := hs
      simp [hb]
    · simp only [hb, if_false] at hs
      cases hs2 : splitAtSeparator t with
      | none => simp [hs2] at hs
      | some x =>
        obtain ⟨h2, r2⟩ := x
        simp only [hs2, Option.some.injEq, Prod.mk.injEq] at hs
        obtain ⟨rfl, rfl⟩ := hs
        obtain ⟨e, hn⟩ := ih hs2
        refine ⟨by simp [e], ?_⟩
        simp [hn, Ne.symm hb]

theorem splitAtSeparator_append {h r : QByteArray} (hn : TokenSeparator ∉ h) :
    splitAtSeparator (h ++ TokenSeparator :: r) = some (h, r) := by
  induction h with
  | nil => simp [splitAtSeparator]
  | cons b t ih =>
    simp only [List.mem_cons, not_or] at hn
    simp [splitAtSeparator, Ne.symm hn.1, ih hn.2]

theorem indexOfScan_eq (l : QByteArray) (i : Nat) :
    indexOfScan TokenSeparator l i =
      match splitAtSeparator l with
      | none => -1
      | some (h, _) => ((i + h.length : Nat) : Int) := by
  induction l generalizing i with
  | nil => simp [indexOfScan, splitAtSeparator]
  | cons b t ih =>
    unfold indexOfScan splitAtSeparator
    by_cases hb : b = TokenSeparator
    · simp [hb]
    · simp only [hb, if_false, ih]
      cases splitAtSeparator t with
      | none => rfl
      | some x =>
        obtain ⟨h, r⟩ := x
        simp only [List.length_cons]
        congr 1
        omega

theorem indexOf_zero (l : QByteArray) :
    indexOf l TokenSeparator 0 =
      match splitAtSeparator l with
      | none => -1
      | some (h, _) => (h.length : Int) := by
  unfold indexOf
  cases l with
  | nil => simp [splitAtSeparator]
  | cons b t =>
    have hpos : (0 : Int) < ((b :: t).length : Int) := by
      simp only [List.length_cons]; omega
    simp only [lt_self_iff_false, if_false, hpos, if_true, Int.toNat_zero, List.drop_zero,
      indexOfScan_eq]
    cases splitAtSeparator (b :: t) with
    | none => rfl
    | some x => simp

theorem indexOf_after (h r : QByteArray) :
    indexOf (h ++ TokenSeparator :: r) TokenSeparator ((h.length : Int) + 1) =
      match splitAtSeparator r with
      | none => -1
      | some (p, _) => ((h.length + 1 + p.length : Nat) : Int) := by
  unfold indexOf
  have h0 : ¬ ((h.length : Int) + 1 < 0) := by omega
  have hn : ((h.length : Int) + 1).toNat = h.length + 1 := by omega
  simp only [h0, if_false, hn]
  cases r with
  | nil => simp [splitAtSeparator]
  | cons b t =>
    have hlt : (h.length : Int) + 1 < ((h ++ TokenSeparator :: b :: t).length : Int) := by
      simp only [List.length_append, List.length_cons]; omega
    have hd : (h ++ TokenSeparator :: b :: t).drop (h.length + 1) = b :: t := by
      rw [List.drop_append_eq_append_drop]
      simp [List.drop_eq_nil_of_le]
    simp only [hlt, if_true, hd, indexOfScan_eq]

theorem left_append (a b : QByteArray) : left (a ++ b) (a.length : Int) = a := by
  unfold left
  split
  · rename_i hge
    have : b.length = 0 := by
      simp only [List.length_append, Nat.cast_add, ge_iff_le] at hge; omega
    have hb : b = [] := List.length_eq_zero.mp this
    simp [hb]
  · simp

theorem right_append (a b : QByteArray) : right (a ++ b) (b.length : Int) = b := by
  unfold right
  split
  · rename_i hge
    have : a.length = 0 := by
      simp only [List.length_append, Nat.cast_add, ge_iff_le] at hge; omega
    have ha : a = [] := List.length_eq_zero.mp this
    simp [ha]
  · simp

theorem mid_append (a b c : QByteArray) :
    mid (a ++ b ++ c) (a.length : Int) (b.length : Int) = b := by
  unfold mid
  have h1 : ¬ ((a.length : Int) > ((a ++ b ++ c).length : Int)) := by
    simp only [List.length_append, Nat.cast_add]; omega
  have h2 : ¬ ((a.length : Int) < 0) := by omega
  have h3 : ¬ ((b.length : Int) < 0 ∨
      (b.length : Int) > ((a ++ b ++ c).length : Int) - (a.length : Int)) := by
    simp only [List.length_append, Nat.cast_add]; omega
  simp only [h1, h2, h3, if_false, Int.toNat_ofNat]
  simp

/-- The result of `decode`, phase by phase: the claims are cleared first; a
token with fewer than two separators is rejected there; otherwise the three
phases run on the segments that the first two separators delimit. -/
theorem decode_eq (E : Collaborators) (t : JsonWebToken) (token : QByteArray) :
    t.decode E token =
      match splitToken token with
      | none => (false, { t with m_claims := QJsonObject.empty })
      | some (h, p, s) => decodePhases E { t with m_claims := QJsonObject.empty } h p s := by
  unfold JsonWebToken.decode splitToken
  simp only [indexOf_zero]
  cases hs1 : splitAtSeparator token with
  | none => simp
  | some x =>
    obtain ⟨h, r⟩ := x
    obtain ⟨e1, _⟩ := splitAtSeparator_some hs1
    have hne : ¬ ((h.length : Int) = -1) := by omega
    simp only [hne, if_false]
    subst e1
    simp only [indexOf_after]
    cases hs2 : splitAtSeparator r with
    | none => simp
    | some y =>
      obtain ⟨p, s⟩ := y
      obtain ⟨e2, _⟩ := splitAtSeparator_some hs2
      have hne2 : ¬ (((h.length + 1 + p.length : Nat) : Int) = -1) := by omega
      simp only [hne2, if_false]
      subst e2
      have hl : left (h ++ TokenSeparator :: (p ++ TokenSeparator :: s)) (h.length : Int) = h :=
        left_append h _
      have hm : mid (h ++ TokenSeparator :: (p ++ TokenSeparator :: s)) ((h.length : Int) + 1)
          (((h.length + 1 + p.length : Nat) : Int) - (h.length : Int) - 1) = p := by
        have := mid_append (h ++ [TokenSeparator]) p (TokenSeparator :: s)
        simp only [List.append_assoc, List.singleton_append, List.length_append,
          List.length_singleton, Nat.cast_add, Nat.cast_one] at this
        have e : ((h.length + 1 + p.length : Nat) : Int) - (h.length : Int) - 1 = (p.length : Int) := by
          push_cast; omega
        rw [e]
        exact this
      have hr : right (h ++ TokenSeparator :: (p ++ TokenSeparator :: s))
          (((h ++ TokenSeparator :: (p ++ TokenSeparator :: s)).length : Int) -
            ((h.length + 1 + p.length : Nat) : Int) - 1) = s := by
        have := right_append (h ++ TokenSeparator :: (p ++ [TokenSeparator])) s
        simp only [List.append_assoc, List.cons_append, List.singleton_append, List.nil_append] at this
        have e : (((h ++ TokenSeparator :: (p ++ TokenSeparator :: s)).length : Int) -
            ((h.length + 1 + p.length : Nat) : Int) - 1) = (s.length : Int) := by
          simp only [List.length_append, List.length_cons]
          push_cast; omega
        rw [e]
        exact this
      have hd : left (h ++ TokenSeparator :: (p ++ TokenSeparator :: s))
          ((h.length + 1 + p.length : Nat) : Int) = h ++ TokenSeparator :: p := by
        have := left_append (h ++ TokenSeparator :: p) (TokenSeparator :: s)
        simp only [List.append_assoc, List.cons_append, List.length_append, List.length_cons] at this
        have e : ((h.length + 1 + p.length : Nat) : Int) = ((h.length + (p.length + 1) : Nat) : Int) := by
          congr 1; omega
        rw [e]
        exact this
      simp only [hl, hm, hr, hd]
      rfl

/-! ## Base64url -/

theorem base64Value_alphabetAt_fin : ∀ v : Fin 64, base64Value (alphabetAt v.val) = some v.val := by
  decide

theorem isBase64urlChar_alphabetAt_fin : ∀ v : Fin 64, isBase64urlChar (alphabetAt v.val) = true := by
  decide

theorem base64Value_alphabetAt {v : Nat} (hv : v < 64) : base64Value (alphabetAt v) = some v :=
  base64Value_alphabetAt_fin ⟨v, hv⟩

theorem isBase64urlChar_alphabetAt {v : Nat} (hv : v < 64) : isBase64urlChar (alphabetAt v) = true :=
  isBase64urlChar_alphabetAt_fin ⟨v, hv⟩

theorem fromBase64Loop_step_low {buf nbits v : Nat} (hv : v < 64) (hn : nbits + 6 < 8)
    (rest : List Byte) :
    fromBase64Loop buf nbits (alphabetAt v :: rest) = fromBase64Loop (buf * 64 + v) (nbits + 6) rest := by
  rw [fromBase64Loop, base64Value_alphabetAt hv]
  have : ¬ (nbits + 6 ≥ 8) := by omega
  simp only [this, if_false]

theorem fromBase64Loop_step_high {buf nbits v : Nat} (hv : v < 64) (hn : nbits + 6 ≥ 8)
    (rest : List Byte) :
    fromBase64Loop buf nbits (alphabetAt v :: rest) =
      Fin.ofNat ((buf * 64 + v) / 2 ^ (nbits + 6 - 8)) ::
        fromBase64Loop ((buf * 64 + v) % 2 ^ (nbits + 6 - 8)) (nbits + 6 - 8) rest := by
  rw [fromBase64Loop, base64Value_alphabetAt hv]
  simp only [hn, if_true]

theorem fromBase64Loop_toBase64 (d : QByteArray) : fromBase64Loop 0 0 (toBase64 d) = d := by
  induction d using toBase64.induct with
  | case1 => simp [toBase64, fromBase64Loop]
  | case2 a =>
    have ha := a.isLt
    simp only [toBase64]
    rw [fromBase64Loop_step_low (Nat.mod_lt _ (by decide)) (by decide),
      fromBase64Loop_step_high (Nat.mod_lt _ (by decide)) (by decide)]
    simp only [fromBase64Loop, List.cons.injEq, and_true]
    apply Fin.ext
    simp only [Fin.ofNat, Nat.reducePow, Nat.reduceAdd, Nat.reduceSub]
    omega
  | case3 a b =>
    have ha := a.isLt
    have hb := b.isLt
    simp only [toBase64]
    rw [fromBase64Loop_step_low (Nat.mod_lt _ (by decide)) (by decide),
      fromBase64Loop_step_high (Nat.mod_lt _ (by decide)) (by decide),
      fromBase64Loop_step_high (Nat.mod_lt _ (by decide)) (by decide)]
    simp only [fromBase64Loop, List.cons.injEq, and_true]
    refine ⟨?_, ?_⟩ <;> apply Fin.ext <;>
      simp only [Fin.ofNat, Nat.reducePow, Nat.reduceAdd, Nat.reduceSub] <;> omega
  | case4 a b c rest ih =>
    have ha := a.isLt
    have hb := b.isLt
    have hc := c.isLt
    simp only [toBase64]
    rw [fromBase64Loop_step_low (Nat.mod_lt _ (by decide)) (by decide),
      fromBase64Loop_step_high (Nat.mod_lt _ (by decide)) (by decide),
      fromBase64Loop_step_high (Nat.mod_lt _ (by decide)) (by decide),
      fromBase64Loop_step_high (Nat.mod_lt _ (by decide)) (by decide)]
    simp only [Nat.reducePow, Nat.reduceAdd, Nat.reduceSub, Nat.mod_one, List.cons.injEq]
    refine ⟨?_, ?_, ?_, ih⟩ <;> apply Fin.ext <;>
      simp only [Fin.ofNat, Nat.reducePow, Nat.reduceAdd, Nat.reduceSub] <;> omega

/-- Decoding what the encoder wrote gives the bytes back. -/
theorem base64decode_base64encode (d : QByteArray) : base64decode (base64encode d) = d :=
  fromBase64Loop_toBase64 d

theorem base64encode_injective {a b : QByteArray} (h : base64encode a = base64encode b) : a = b := by
  have := congrArg base64decode h
  rwa [base64decode_base64encode, base64decode_base64encode] at this

/-- The encoder writes characters of the base64url alphabet only. -/
theorem base64encode_alphabet (d : QByteArray) : ∀ c ∈ base64encode d, isBase64urlChar c = true := by
  unfold base64encode
  induction d using toBase64.induct with
  | case1 => simp [toBase64]
  | case2 a =>
    intro c hc
    simp only [toBase64, List.mem_cons, List.mem_singleton, List.not_mem_nil, or_false] at hc
    rcases hc with rfl | rfl <;> exact isBase64urlChar_alphabetAt (Nat.mod_lt _ (by decide))
  | case3 a b =>
    intro c hc
    simp only [toBase64, List.mem_cons, List.mem_singleton, List.not_mem_nil, or_false] at hc
    rcases hc with rfl | rfl | rfl <;> exact isBase64urlChar_alphabetAt (Nat.mod_lt _ (by decide))
  | case4 a b c rest ih =>
    intro x hx
    simp only [toBase64, List.mem_cons] at hx
    rcases hx with rfl | rfl | rfl | rfl | hx
    · exact isBase64urlChar_alphabetAt (Nat.mod_lt _ (by decide))
    · exact isBase64urlChar_alphabetAt (Nat.mod_lt _ (by decide))
    · exact isBase64urlChar_alphabetAt (Nat.mod_lt _ (by decide))
    · exact isBase64urlChar_alphabetAt (Nat.mod_lt _ (by decide))
    · exact ih x hx

theorem separator_not_base64urlChar : isBase64urlChar TokenSeparator = false := by decide

theorem separator_not_mem_base64encode (d : QByteArray) : TokenSeparator ∉ base64encode d := by
  intro h
  have := base64encode_alphabet d _ h
  rw [separator_not_base64urlChar] at this
  exact Bool.noConfusion this

/-! ## The codec -/

theorem algorithmName_eq (t : JsonWebToken) :
    t.algorithmName = JsonWebToken.algorithmName ⟨t.m_algorithm, [], QJsonObject.empty⟩ := by
  cases t with
  | mk a k c => cases a <;> rfl

theorem encrypt_eq (E : Collaborators) (t : JsonWebToken) (data : QByteArray) :
    t.encrypt E data = JsonWebToken.encrypt E ⟨t.m_algorithm, t.m_key, QJsonObject.empty⟩ data := rfl

theorem setAlgorithmByName_algorithmName (t : JsonWebToken) (a : Algorithm) :
    t.setAlgorithmByName (JsonWebToken.algorithmName ⟨a, [], QJsonObject.empty⟩) =
      (true, { t with m_algorithm := a }) := by
  cases a <;> rfl

theorem headerObject_members (a : Algorithm) :
    headerObject a = ⟨[(KeyAlgorithm, .string (JsonWebToken.algorithmName ⟨a, [], QJsonObject.empty⟩)),
      (KeyType, .string TypeJwt)]⟩ := by
  cases a <;> rfl

theorem encode_eq (E : Collaborators) (t : JsonWebToken) :
    t.encode E = signingInput E t.m_algorithm t.m_claims ++
      TokenSeparator :: base64encode (t.encrypt E (signingInput E t.m_algorithm t.m_claims)) := by
  unfold JsonWebToken.encode signingInput headerObject
  rw [algorithmName_eq t]
  simp only [List.append_assoc, List.singleton_append, List.cons_append, List.nil_append]

theorem splitToken_segments {h p : QByteArray} (s : QByteArray) (hh : TokenSeparator ∉ h)
    (hp : TokenSeparator ∉ p) :
    splitToken (h ++ TokenSeparator :: (p ++ TokenSeparator :: s)) = some (h, p, s) := by
  unfold splitToken
  rw [splitAtSeparator_append hh]
  simp only [splitAtSeparator_append hp]

theorem splitToken_encode (E : Collaborators) (t : JsonWebToken) :
    splitToken (t.encode E) =
      some (base64encode (makeJson E (headerObject t.m_algorithm)),
        base64encode (makeJson E t.m_claims),
        base64encode (t.encrypt E (signingInput E t.m_algorithm t.m_claims))) := by
  rw [encode_eq]
  unfold signingInput
  rw [List.append_assoc, List.cons_append]
  exact splitToken_segments _ (separator_not_mem_base64encode _) (separator_not_mem_base64encode _)

theorem parseJson_makeJson {E : Collaborators} {o : QJsonObject} (h : ReadsBack E o) :
    parseJson E (base64decode (base64encode (makeJson E o))) = (o, true) := by
  unfold ReadsBack at h
  rw [base64decode_base64encode]
  unfold parseJson makeJson
  rw [h]

theorem decodeHeader_encoded {E : Collaborators} (t : JsonWebToken) {a : Algorithm}
    (h : ReadsBack E (headerObject a)) :
    t.decodeHeader E (base64encode (makeJson E (headerObject a))) =
      (true, { t with m_algorithm := a }) := by
  unfold JsonWebToken.decodeHeader
  rw [parseJson_makeJson h]
  cases a <;> rfl

theorem decodePayload_encoded {E : Collaborators} (t : JsonWebToken) {c : QJsonObject}
    (h : ReadsBack E c) :
    t.decodePayload E (base64encode (makeJson E c)) = (true, { t with m_claims := c }) := by
  unfold JsonWebToken.decodePayload
  rw [parseJson_makeJson h]

/-- What `decode` does with a token that `encode` produced, whatever the
decoding instance held before: it adopts the algorithm and claims of the
token and accepts exactly when the signature recomputed with its own key is
the one in the token. -/
theorem decode_encode_general {E : Collaborators} (a a' : Algorithm) (k k' : QByteArray)
    (c c' : QJsonObject) (hh : ReadsBack E (headerObject a)) (hc : ReadsBack E c) :
    JsonWebToken.decode E ⟨a', k', c'⟩ (JsonWebToken.encode E ⟨a, k, c⟩) =
      (decide (base64encode (JsonWebToken.encrypt E ⟨a, k', QJsonObject.empty⟩ (signingInput E a c)) =
        base64encode (JsonWebToken.encrypt E ⟨a, k, QJsonObject.empty⟩ (signingInput E a c))),
        ⟨a, k', c⟩) := by
  rw [decode_eq, splitToken_encode]
  simp only [decodePhases]
  rw [decodeHeader_encoded _ hh]
  simp only [Bool.not_true, Bool.false_eq_true, if_false]
  rw [decodePayload_encoded _ hc]
  simp only [Bool.not_true, Bool.false_eq_true, if_false]
  rfl

theorem setAlgorithmByName_eq (t : JsonWebToken) (name : String) :
    t.setAlgorithmByName name =
      match algorithmOfName name with
      | some a => (true, { t with m_algorithm := a })
      | none => (false, t) := by
  unfold JsonWebToken.setAlgorithmByName algorithmOfName
  split_ifs <;> rfl

theorem decodeHeader_eq (E : Collaborators) (t : JsonWebToken) (header : QByteArray) :
    t.decodeHeader E header =
      match headerAlgorithm E header with
      | some a => (true, { t with m_algorithm := a })
      | none => (false, t) := by
  unfold JsonWebToken.decodeHeader headerAlgorithm
  rcases hp : parseJson E (base64decode header) with ⟨o, ok⟩
  cases ok with
  | false => simp
  | true =>
    by_cases h1 : o.contains KeyType = true
    · by_cases h2 : (o.value KeyType).toString = TypeJwt
      · by_cases h3 : o.contains KeyAlgorithm = true
        · simp only [h1, h2, h3, setAlgorithmByName_eq]
          cases algorithmOfName (o.value KeyAlgorithm).toString <;> simp
        · simp [h1, h2, h3]
      · simp [h1, h2]
    · simp [h1]

/-- The instance after `decode`, by outcome of the phases. -/
theorem decodePhases_eq (E : Collaborators) (t : JsonWebToken) (h p s : QByteArray) :
    decodePhases E t h p s =
      match headerAlgorithm E h with
      | none => (false, t)
      | some a =>
        if (parseJson E (base64decode p)).2 = true then
          (decide (base64encode (JsonWebToken.encrypt E ⟨a, t.m_key, QJsonObject.empty⟩
              (h ++ TokenSeparator :: p)) = s),
            ⟨a, t.m_key, (parseJson E (base64decode p)).1⟩)
        else (false, ⟨a, t.m_key, (parseJson E (base64decode p)).1⟩) := by
  unfold decodePhases
  rw [decodeHeader_eq]
  cases headerAlgorithm E h with
  | none => simp
  | some a =>
    simp only [Bool.not_true, Bool.false_eq_true, if_false, JsonWebToken.decodePayload]
    rcases parseJson E (base64decode p) with ⟨o, ok⟩
    cases ok with
    | false => simp
    | true => simp [JsonWebToken.validate, JsonWebToken.encrypt]

theorem splitAtSeparator_count {l h r : QByteArray} (hs : splitAtSeparator l = some (h, r)) :
    separatorCount l = separatorCount r + 1 := by
  obtain ⟨e, hn⟩ := splitAtSeparator_some hs
  subst e
  unfold separatorCount
  rw [List.count_append, List.count_cons_self, List.count_eq_zero_of_not_mem hn]
  omega

theorem splitToken_none_iff (token : QByteArray) :
    splitToken token = none ↔ separatorCount token < 2 := by
  unfold splitToken
  cases hs1 : splitAtSeparator token with
  | none =>
    have := splitAtSeparator_none.mp hs1
    simp [separatorCount, List.count_eq_zero_of_not_mem this]
  | some x =>
    obtain ⟨h, r⟩ := x
    rw [splitAtSeparator_count hs1]
    cases hs2 : splitAtSeparator r with
    | none =>
      have := splitAtSeparator_none.mp hs2
      simp [hs2, separatorCount, List.count_eq_zero_of_not_mem this]
    | some y =>
      obtain ⟨p, s⟩ := y
      rw [splitAtSeparator_count hs2]
      simp [hs2]

theorem separatorCount_base64encode (d : QByteArray) : separatorCount (base64encode d) = 0 :=
  List.count_eq_zero_of_not_mem (separator_not_mem_base64encode d)

theorem parseJson_fail {E : Collaborators} {d : QByteArray} (h : (parseJson E d).2 = false) :
    (parseJson E d).1 = QJsonObject.empty := by
  unfold parseJson at h ⊢
  split <;> simp_all

theorem splitToken_some {token h p s : QByteArray} (hs : splitToken token = some (h, p, s)) :
    token = h ++ TokenSeparator :: (p ++ TokenSeparator :: s) ∧ TokenSeparator ∉ h ∧
      TokenSeparator ∉ p := by
  unfold splitToken at hs
  cases hs1 : splitAtSeparator token with
  | none => simp [hs1] at hs
  | some x =>
    obtain ⟨h1, r⟩ := x
    cases hs2 : splitAtSeparator r with
    | none => simp [hs1, hs2] at hs
    | some y =>
      obtain ⟨p1, s1⟩ := y
      simp only [hs1, hs2, Option.some.injEq, Prod.mk.injEq] at hs
      obtain ⟨rfl, rfl, rfl⟩ := hs
      obtain ⟨e1, n1⟩ := splitAtSeparator_some hs1
      obtain ⟨e2, n2⟩ := splitAtSeparator_some hs2
      exact ⟨by rw [e1, e2], n1, n2⟩

theorem splitToken_count {token h p s : QByteArray} (hs : splitToken token = some (h, p, s)) :
    separatorCount token = separatorCount s + 2 := by
  obtain ⟨e, n1, n2⟩ := splitToken_some hs
  subst e
  unfold separatorCount
  simp only [List.count_append, List.count_cons_self, List.count_eq_zero_of_not_mem n1,
    List.count_eq_zero_of_not_mem n2]
  omega

theorem separatorCount_set {l : QByteArray} {i : Nat} {x : Byte} (b : Byte)
    (hx : l[i]? = some x) (hxd : x ≠ TokenSeparator) :
    separatorCount (l.set i b) = separatorCount l + (if b = TokenSeparator then 1 else 0) := by
  obtain ⟨hi, e⟩ := List.getElem?_eq_some.mp hx
  unfold separatorCount
  rw [List.count_set _ _ _ _ hi]
  have h1 : (l[i] == TokenSeparator) = false := by
    rw [e]; simpa using hxd
  simp only [h1, Bool.false_eq_true, if_false, Nat.sub_zero, beq_iff_eq]

theorem splitToken_of_count_one {d : QByteArray} (s : QByteArray) (hd : separatorCount d = 1) :
    ∃ h p, d = h ++ TokenSeparator :: p ∧ splitToken (d ++ TokenSeparator :: s) = some (h, p, s) := by
  cases hs : splitAtSeparator d with
  | none =>
    have := splitAtSeparator_none.mp hs
    rw [separatorCount, List.count_eq_zero_of_not_mem this] at hd
    omega
  | some x =>
    obtain ⟨h, p⟩ := x
    obtain ⟨e, n1⟩ := splitAtSeparator_some hs
    have hc := splitAtSeparator_count hs
    have n2 : TokenSeparator ∉ p := by
      have : separatorCount p = 0 := by omega
      exact List.count_eq_zero.mp this
    refine ⟨h, p, e, ?_⟩
    rw [e, List.append_assoc, List.cons_append]
    exact splitToken_segments s n1 n2

theorem headerAlgorithm_encoded {E : Collaborators} {a : Algorithm}
    (h : ReadsBack E (headerObject a)) :
    headerAlgorithm E (base64encode (makeJson E (headerObject a))) = some a := by
  unfold headerAlgorithm
  rw [parseJson_makeJson h]
  cases a <;> rfl

theorem separatorCount_signingInput (E : Collaborators) (a : Algorithm) (c : QJsonObject) :
    separatorCount (signingInput E a c) = 1 := by
  unfold signingInput
  have h1 := separatorCount_base64encode (makeJson E (headerObject a))
  have h2 := separatorCount_base64encode (makeJson E c)
  simp only [separatorCount, List.count_append, List.count_cons_self] at h1 h2 ⊢
  omega

/-- What an accepted token looks like: it splits into three segments, the
header phase adopts an algorithm, the payload parses to an object, and the
signature recomputed over `header.payload` with that algorithm and the key of
the instance encodes to the third segment. -/
theorem decode_true_inv {E : Collaborators} {t : JsonWebToken} {token : QByteArray}
    (hd : (t.decode E token).1 = true) :
    ∃ h p s a, splitToken token = some (h, p, s) ∧ headerAlgorithm E h = some a ∧
      (parseJson E (base64decode p)).2 = true ∧
      base64encode (JsonWebToken.encrypt E ⟨a, t.m_key, QJsonObject.empty⟩
        (h ++ TokenSeparator :: p)) = s ∧
      (t.decode E token).2 = ⟨a, t.m_key, (parseJson E (base64decode p)).1⟩ := by
  rw [decode_eq] at hd ⊢
  cases hs : splitToken token with
  | none => simp [hs] at hd
  | some x =>
    obtain ⟨h, p, s⟩ := x
    simp only [hs, decodePhases_eq] at hd ⊢
    cases hh : headerAlgorithm E h with
    | none => simp [hh] at hd
    | some a =>
      simp only [hh] at hd ⊢
      by_cases hp : (parseJson E (base64decode p)).2 = true
      · simp only [hp, if_true, decide_eq_true_eq] at hd ⊢
        exact ⟨h, p, s, a, rfl, hh, hp, hd, rfl⟩
      · simp [hp] at hd

/-- HMAC prepares its key by filling it with zero bytes up to the block
size, so a key shorter than a block and the same key followed by a zero byte
give the same code. -/
theorem hmac_zero_padded (hash : QByteArray → QByteArray) (blockSize : Nat)
    (message key : QByteArray) (hk : key.length < blockSize) :
    hmac hash blockSize message (key ++ [0]) = hmac hash blockSize message key := by
  unfold hmac
  have h1 : ¬ (key ++ [0]).length > blockSize := by
    simp only [List.length_append, List.length_singleton]; omega
  have h2 : ¬ key.length > blockSize := by omega
  simp only [h1, h2, if_false]
  have hpad : key ++ [0] ++ List.replicate (blockSize - (key ++ [0]).length) (0 : Byte) =
      key ++ List.replicate (blockSize - key.length) (0 : Byte) := by
    obtain ⟨n, hn⟩ : ∃ n, blockSize - key.length = n + 1 := ⟨blockSize - key.length - 1, by omega⟩
    have hm : blockSize - (key ++ [0]).length = n := by
      simp only [List.length_append, List.length_singleton]; omega
    rw [hn, hm, List.replicate_succ, List.append_assoc, List.singleton_append]
  rw [hpad]

theorem algorithmOfName_eq_none {name : String}
    (h : name ≠ "none" ∧ name ≠ "HS256" ∧ name ≠ "HS384" ∧ name ≠ "HS512") :
    algorithmOfName name = none := by
  unfold algorithmOfName
  simp [h.1, h.2.1, h.2.2.1, h.2.2.2]

theorem headerAlgorithm_eq_none {E : Collaborators} {h : QByteArray} {o : QJsonObject}
    (hparse : parseJson E (base64decode h) = (o, true))
    (halg : algorithmOfName (o.value KeyAlgorithm).toString = none) :
    headerAlgorithm E h = none := by
  unfold headerAlgorithm
  simp only [hparse, halg, ite_self]

theorem encode_eq_segments (E : Collaborators) (t : JsonWebToken) (s : QByteArray) :
    signingInput E t.m_algorithm t.m_claims ++ TokenSeparator :: s =
      base64encode (makeJson E (headerObject t.m_algorithm)) ++ TokenSeparator ::
        (base64encode (makeJson E t.m_claims) ++ TokenSeparator :: s) := by
  simp only [signingInput, List.append_assoc, List.cons_append]

/-- The positions and slices that `decode` computes for a token with at least
two separators are the three segments of the token. -/
theorem segments_of_split {token h p s : QByteArray} (hs : splitToken token = some (h, p, s)) :
    indexOf token TokenSeparator 0 = (h.length : Int) ∧
    indexOf token TokenSeparator ((h.length : Int) + 1) = ((h.length + 1 + p.length : Nat) : Int) ∧
    left token (h.length : Int) = h ∧
    mid token ((h.length : Int) + 1)
      (((h.length + 1 + p.length : Nat) : Int) - (h.length : Int) - 1) = p ∧
    right token ((token.length : Int) - ((h.length + 1 + p.length : Nat) : Int) - 1) = s ∧
    left token ((h.length + 1 + p.length : Nat) : Int) = h ++ TokenSeparator :: p := by
  obtain ⟨e, n1, n2⟩ := splitToken_some hs
  subst e
  refine ⟨?_, ?_, left_append h _, ?_, ?_, ?_⟩
  · rw [indexOf_zero, splitAtSeparator_append n1]
  · rw [indexOf_after, splitAtSeparator_append n2]
  · have := mid_append (h ++ [TokenSeparator]) p (TokenSeparator :: s)
    simp only [List.append_assoc, List.singleton_append, List.length_append,
      List.length_singleton, Nat.cast_add, Nat.cast_one] at this
    have e : ((h.length + 1 + p.length : Nat) : Int) - (h.length : Int) - 1 = (p.length : Int) := by
      push_cast; omega
    rw [e]
    exact this
  · have := right_append (h ++ TokenSeparator :: (p ++ [TokenSeparator])) s
    simp only [List.append_assoc, List.cons_append, List.singleton_append, List.nil_append] at this
    have e : (((h ++ TokenSeparator :: (p ++ TokenSeparator :: s)).length : Int) -
        ((h.length + 1 + p.length : Nat) : Int) - 1) = (s.length : Int) := by
      simp only [List.length_append, List.length_cons]
      push_cast; omega
    rw [e]
    exact this
  · have := left_append (h ++ TokenSeparator :: p) (TokenSeparator :: s)
    simp only [List.append_assoc, List.cons_append, List.length_append, List.length_cons] at this
    have e : ((h.length + 1 + p.length : Nat) : Int) = ((h.length + (p.length + 1) : Nat) : Int) := by
      congr 1; omega
    rw [e]
    exact this

theorem splitToken_isSome_of_count {token : QByteArray} (h : 2 ≤ separatorCount token) :
    ∃ x, splitToken token = some x := by
  cases hs : splitToken token with
  | none =>
    have := (splitToken_none_iff token).mp hs
    omega
  | some x => exact ⟨x, rfl⟩

theorem toString_eq_iff {v : QJsonValue} {s : String} (hs : s ≠ "") :
    v.toString = s ↔ v = .string s := by
  cases v <;> simp [QJsonValue.toString, Ne.symm hs]

theorem algorithmOfName_eq_some {name : String} {a : Algorithm}
    (h : algorithmOfName name = some a) :
    name = JsonWebToken.algorithmName ⟨a, [], QJsonObject.empty⟩ ∧
      (name = "none" ∨ name = "HS256" ∨ name = "HS384" ∨ name = "HS512") := by
  unfold algorithmOfName at h
  split_ifs at h with h1 h2 h3 h4 <;> simp only [Option.some.injEq, reduceCtorEq] at h <;>
    subst h <;> simp [JsonWebToken.algorithmName, *]

theorem algorithmOfName_algorithmName (a : Algorithm) :
    algorithmOfName (JsonWebToken.algorithmName ⟨a, [], QJsonObject.empty⟩) = some a := by
  cases a <;> rfl

theorem encrypt_eq_specMac (E : Collaborators) (t : JsonWebToken) (d : QByteArray) :
    t.encrypt E d = specMac E t.m_algorithm t.m_key d := by
  rcases t with ⟨a, k, c⟩
  cases a <;> rfl

theorem parseJson_eq_iff (E : Collaborators) (d : QByteArray) (o : QJsonObject) :
    parseJson E d = (o, true) ↔ E.fromJson d = some (.object o) := by
  unfold parseJson
  cases hf : E.fromJson d with
  | none => simp
  | some doc =>
    cases doc with
    | object o2 => simp
    | array a => simp

theorem parseJson_ok_iff (E : Collaborators) (d : QByteArray) :
    (parseJson E d).2 = true ↔ ∃ o, E.fromJson d = some (.object o) := by
  unfold parseJson
  cases hf : E.fromJson d with
  | none => simp
  | some doc =>
    cases doc with
    | object o2 => simp
    | array a => simp

theorem specAlgorithmName_eq (a : Algorithm) :
    specAlgorithmName a = JsonWebToken.algorithmName ⟨a, [], QJsonObject.empty⟩ := by
  cases a <;> rfl

theorem algorithmName_ne_empty (a : Algorithm) : specAlgorithmName a ≠ "" := by
  cases a <;> decide

/-- The header phase adopts algorithm `a` exactly when the header segment
decodes and parses to an object that passes the header checks for `a`. -/
theorem headerAlgorithm_eq_some_iff (E : Collaborators) (h : QByteArray) (a : Algorithm) :
    headerAlgorithm E h = some a ↔
      ∃ o, E.fromJson (base64decode h) = some (.object o) ∧ HeaderNames o a := by
  unfold headerAlgorithm HeaderNames
  constructor
  · intro hh
    simp only at hh
    split_ifs at hh with hc
    obtain ⟨h1, h2, h3, h4⟩ := hc
    obtain ⟨o, ho⟩ := (parseJson_ok_iff E _).mp h1
    have hp := (parseJson_eq_iff E _ o).mpr ho
    rw [hp] at h2 h3 h4 hh
    simp only at h2 h3 h4 hh
    refine ⟨o, ho, h2, (toString_eq_iff (by decide)).mp h3, h4, ?_⟩
    have hn := (algorithmOfName_eq_some hh).1
    rw [← specAlgorithmName_eq] at hn
    exact (toString_eq_iff (algorithmName_ne_empty a)).mp hn
  · rintro ⟨o, ho, h2, h3, h4, h5⟩
    have hp := (parseJson_eq_iff E _ o).mpr ho
    simp only [hp, h2, h3, h4, h5, QJsonValue.toString, and_self, if_true]
    rw [specAlgorithmName_eq]
    exact algorithmOfName_algorithmName a

theorem decodeHeader_flag (E : Collaborators) (t : JsonWebToken) (h : QByteArray) :
    (t.decodeHeader E h).1 = (headerAlgorithm E h).isSome := by
  rw [decodeHeader_eq]
  cases headerAlgorithm E h <;> rfl

theorem decodePayload_flag (E : Collaborators) (t : JsonWebToken) (p : QByteArray) :
    (t.decodePayload E p).1 = (parseJson E (base64decode p)).2 := by
  unfold JsonWebToken.decodePayload
  rfl

theorem decode_key (E : Collaborators) (t : JsonWebToken) (token : QByteArray) :
    (t.decode E token).2.m_key = t.m_key := by
  rw [decode_eq]
  cases hs : splitToken token with
  | none => rfl
  | some x =>
    obtain ⟨h, p, s⟩ := x
    simp only [decodePhases_eq]
    cases headerAlgorithm E h with
    | none => rfl
    | some a =>
      simp only
      split_ifs <;> rfl

theorem headerNames_headerObject (a : Algorithm) : HeaderNames (headerObject a) a := by
  cases a <;> exact ⟨rfl, rfl, rfl, rfl⟩

theorem empty_claims (u : JsonWebToken) (hu : u.m_claims = QJsonObject.empty) :
    u.claims = [] ∧ ∀ n, u.contains n = false := by
  unfold JsonWebToken.claims JsonWebToken.contains
  rw [hu]
  exact ⟨rfl, fun _ => rfl⟩

theorem sha2Round_length (P : Sha2Params) (s : List Nat) (kw : Nat × Nat) :
    (sha2Round P s kw).length = s.length := by
  unfold sha2Round
  split <;> simp

theorem foldl_sha2Round_length (P : Sha2Params) (l : List (Nat × Nat)) (s : List Nat) :
    (l.foldl (sha2Round P) s).length = s.length := by
  induction l generalizing s with
  | nil => rfl
  | cons kw l ih => rw [List.foldl_cons, ih, sha2Round_length]

theorem sha2Compress_length (P : Sha2Params) (hash : List Nat) (block : List Byte) :
    (sha2Compress P hash block).length = hash.length := by
  unfold sha2Compress
  simp only [List.length_zipWith, foldl_sha2Round_length, Nat.min_self]

theorem foldl_sha2Compress_length (P : Sha2Params) (blocks : List (List Byte)) (hash : List Nat) :
    (blocks.foldl (sha2Compress P) hash).length = hash.length := by
  induction blocks generalizing hash with
  | nil => rfl
  | cons b l ih => rw [List.foldl_cons, ih, sha2Compress_length]

theorem natToBytes_length (n x : Nat) : (natToBytes n x).length = n := by
  induction n with
  | zero => rfl
  | succ n ih => simp [natToBytes, ih]

theorem flatten_natToBytes_length (n : Nat) (l : List Nat) :
    ((l.map (natToBytes n)).flatten).length = l.length * n := by
  induction l with
  | nil => simp
  | cons x l ih =>
    simp only [List.map_cons, List.flatten_cons, List.length_append, natToBytes_length, ih,
      List.length_cons]
    rw [Nat.add_mul, Nat.one_mul, Nat.add_comm]

/-- The length of a SHA-2 digest. -/
theorem sha2_length (P : Sha2Params) (message : List Byte) :
    (sha2 P message).length = min P.digestBytes (P.init.length * (P.wordBits / 8)) := by
  unfold sha2
  simp only [List.length_take, flatten_natToBytes_length, foldl_sha2Compress_length]

theorem refHash_length (m : HashAlgorithm) (x : QByteArray) :
    (refHash m x).length = match m with
      | .Sha256 => 32
      | .Sha384 => 48
      | .Sha512 => 64 := by
  cases m <;> simp only [refHash, sha2_length] <;> decide

/-- The digests of the reference hash functions are not empty. -/
theorem refHash_ne_nil (m : HashAlgorithm) (x : QByteArray) : refHash m x ≠ [] := by
  intro h
  have := refHash_length m x
  rw [h] at this
  cases m <;> simp at this

theorem base64encode_eq_nil {d : QByteArray} : base64encode d = [] ↔ d = [] := by
  constructor
  · intro h
    have e : base64encode ([] : QByteArray) = [] := rfl
    exact base64encode_injective (h.trans e.symm)
  · rintro rfl
    rfl

theorem hmac_ne_nil {hash : QByteArray → QByteArray} (hh : ∀ x, hash x ≠ []) (blockSize : Nat)
    (message key : QByteArray) : hmac hash blockSize message key ≠ [] := by
  unfold hmac
  exact hh _

theorem encrypt_eq_nil_iff {E : Collaborators} (hdigest : ∀ m x, E.hash m x ≠ [])
    (t : JsonWebToken) (d : QByteArray) : t.encrypt E d = [] ↔ t.m_algorithm = .None := by
  rcases t with ⟨a, k, c⟩
  cases a <;> simp [JsonWebToken.encrypt, hmac_ne_nil (hdigest _)]

theorem specAlgorithmName_injective {a b : Algorithm}
    (h : specAlgorithmName a = specAlgorithmName b) : a = b := by
  cases a <;> cases b <;> first | rfl | (exact absurd h (by decide))

theorem headerNames_unique {o : QJsonObject} {a b : Algorithm} (ha : HeaderNames o a)
    (hb : HeaderNames o b) : a = b := by
  have h1 := ha.2.2.2
  rw [hb.2.2.2] at h1
  simp only [QJsonValue.string.injEq] at h1
  exact (specAlgorithmName_injective h1).symm

set_option maxRecDepth 100000 in
theorem base64Value_isSome_fin : ∀ ch : Fin 256, (base64Value ch).isSome = isBase64urlChar ch := by
  decide

theorem base64Value_eq_none {ch : Byte} (h : isBase64urlChar ch = false) :
    base64Value ch = none := by
  have := base64Value_isSome_fin ch
  rw [h] at this
  cases hv : base64Value ch with
  | none => rfl
  | some d => simp [hv] at this

/-- The decoder sees only the alphabet characters of its input. -/
theorem fromBase64Loop_filter (buf nbits : Nat) (l : List Byte) :
    fromBase64Loop buf nbits (l.filter isBase64urlChar) = fromBase64Loop buf nbits l := by
  induction l generalizing buf nbits with
  | nil => rfl
  | cons ch rest ih =>
    cases hc : isBase64urlChar ch with
    | false =>
      rw [List.filter_cons_of_neg (by simp [hc]), ih]
      conv => rhs; rw [fromBase64Loop, base64Value_eq_none hc]
    | true =>
      rw [List.filter_cons_of_pos hc]
      conv => lhs; rw [fromBase64Loop]
      conv => rhs; rw [fromBase64Loop]
      cases base64Value ch with
      | none => exact ih buf nbits
      | some d =>
        simp only
        split
        · rw [ih]
        · rw [ih]

theorem base64decode_filter (d : QByteArray) :
    base64decode (d.filter isBase64urlChar) = base64decode d :=
  fromBase64Loop_filter 0 0 d

/-! ## JSON objects -/

theorem codeUnitsLt_irrefl (l : List Nat) : codeUnitsLt l l = false := by
  induction l with
  | nil => rfl
  | cons a l ih => simp [codeUnitsLt, ih]

theorem codeUnitsLt_trans {a b c : List Nat} (hab : codeUnitsLt a b = true)
    (hbc : codeUnitsLt b c = true) : codeUnitsLt a c = true := by
  induction a generalizing b c with
  | nil =>
    cases b with
    | nil => simp [codeUnitsLt] at hab
    | cons y b =>
      cases c with
      | nil => simp [codeUnitsLt] at hbc
      | cons z c => simp [codeUnitsLt]
  | cons x a ih =>
    cases b with
    | nil => simp [codeUnitsLt] at hab
    | cons y b =>
      cases c with
      | nil => simp [codeUnitsLt] at hbc
      | cons z c =>
        simp only [codeUnitsLt] at hab hbc ⊢
        by_cases hxy : x < y
        · by_cases hyz : y < z
          · have : x < z := by omega
            simp [this]
          · by_cases hyz2 : y = z
            · subst hyz2
              simp [hxy]
            · simp [hyz, hyz2] at hbc
        · by_cases hxy2 : x = y
          · subst hxy2
            simp only [hxy, if_false, if_true] at hab
            by_cases hyz : x < z
            · simp [hyz]
            · by_cases hyz2 : x = z
              · subst hyz2
                simp only [hyz, if_false, if_true] at hbc ⊢
                exact ih hab hbc
              · simp [hyz, hyz2] at hbc
          · simp [hxy, hxy2] at hab

theorem codeUnitsLt_total {a b : List Nat} (hab : codeUnitsLt a b = false)
    (hba : codeUnitsLt b a = false) : a = b := by
  induction a generalizing b with
  | nil =>
    cases b with
    | nil => rfl
    | cons y b => simp [codeUnitsLt] at hab
  | cons x a ih =>
    cases b with
    | nil => simp [codeUnitsLt] at hba
    | cons y b =>
      simp only [codeUnitsLt] at hab hba
      by_cases hxy : x < y
      · simp [hxy] at hab
      · by_cases hyx : y < x
        · simp [hyx] at hba
        · have hxe : x = y := by omega
          subst hxe
          simp only [hxy, if_false, if_true] at hab hba
          rw [ih hab hba]

theorem utf16Units_ne_nil (c : Char) : utf16Units c ≠ [] := by
  unfold utf16Units
  split <;> simp

theorem char_valid_toNat (c : Char) :
    c.toNat < 0xD800 ∨ (0xDFFF < c.toNat ∧ c.toNat < 0x110000) := c.valid

theorem char_eq_of_toNat_eq {c d : Char} (h : c.toNat = d.toNat) : c = d := by
  rw [← Char.ofNat_toNat c, ← Char.ofNat_toNat d, h]

theorem utf16Units_append_injective {c d : Char} {r1 r2 : List Nat}
    (h : utf16Units c ++ r1 = utf16Units d ++ r2) : c = d ∧ r1 = r2 := by
  have hc := char_valid_toNat c
  have hd := char_valid_toNat d
  unfold utf16Units at h
  by_cases h1 : c.toNat < 0x10000
  · by_cases h2 : d.toNat < 0x10000
    · simp only [h1, h2, if_true, List.singleton_append, List.cons.injEq] at h
      exact ⟨char_eq_of_toNat_eq h.1, h.2⟩
    · simp only [h1, h2, if_true, if_false, List.singleton_append, List.cons_append,
        List.nil_append, List.cons.injEq] at h
      omega
  · by_cases h2 : d.toNat < 0x10000
    · simp only [h1, h2, if_true, if_false, List.singleton_append, List.cons_append,
        List.nil_append, List.cons.injEq] at h
      omega
    · simp only [h1, h2, if_false, List.cons_append, List.nil_append, List.cons.injEq] at h
      obtain ⟨e1, e2, hr⟩ := h
      exact ⟨char_eq_of_toNat_eq (by omega), hr⟩

theorem flatMap_utf16Units_injective {l1 l2 : List Char}
    (h : l1.flatMap utf16Units = l2.flatMap utf16Units) : l1 = l2 := by
  induction l1 generalizing l2 with
  | nil =>
    cases l2 with
    | nil => rfl
    | cons d t =>
      simp only [List.flatMap_nil, List.flatMap_cons] at h
      have := utf16Units_ne_nil d
      cases hu : utf16Units d with
      | nil => exact absurd hu this
      | cons x r => rw [hu] at h; simp at h
  | cons c t ih =>
    cases l2 with
    | nil =>
      simp only [List.flatMap_nil, List.flatMap_cons] at h
      have := utf16Units_ne_nil c
      cases hu : utf16Units c with
      | nil => exact absurd hu this
      | cons x r => rw [hu] at h; simp at h
    | cons d t2 =>
      simp only [List.flatMap_cons] at h
      obtain ⟨e, hr⟩ := utf16Units_append_injective h
      rw [e, ih hr]

theorem qstringLt_irrefl (a : String) : qstringLt a a = false := codeUnitsLt_irrefl _

theorem qstringLt_trans {a b c : String} (hab : qstringLt a b = true)
    (hbc : qstringLt b c = true) : qstringLt a c = true := codeUnitsLt_trans hab hbc

theorem qstringLt_total {a b : String} (hab : qstringLt a b = false)
    (hba : qstringLt b a = false) : a = b := by
  have := flatMap_utf16Units_injective (codeUnitsLt_total hab hba)
  exact String.ext this

theorem qstringLt_ne {a b : String} (h : qstringLt a b = true) : a ≠ b := by
  rintro rfl
  rw [qstringLt_irrefl] at h
  exact Bool.noConfusion h

theorem find_insertEntry_self (k : String) (v : QJsonValue) (l : List (String × QJsonValue)) :
    (insertEntry k v l).find? (fun e => e.1 = k) = some (k, v) := by
  induction l with
  | nil => simp [insertEntry]
  | cons e t ih =>
    obtain ⟨k0, w⟩ := e
    unfold insertEntry
    by_cases h1 : qstringLt k k0 = true
    · simp [h1]
    · by_cases h2 : k = k0
      · subst h2
        simp [h1]
      · simp only [h1, h2, if_false, Bool.false_eq_true]
        rw [List.find?_cons_of_neg _ (by simpa using Ne.symm h2)]
        exact ih

theorem find_insertEntry_other {k m : String} (hm : m ≠ k) (v : QJsonValue)
    (l : List (String × QJsonValue)) :
    (insertEntry k v l).find? (fun e => e.1 = m) = l.find? (fun e => e.1 = m) := by
  induction l with
  | nil =>
    simp only [insertEntry]
    rw [List.find?_cons_of_neg _ (by simpa using Ne.symm hm)]
  | cons e t ih =>
    obtain ⟨k0, w⟩ := e
    unfold insertEntry
    by_cases h1 : qstringLt k k0 = true
    · simp only [h1, if_true]
      rw [List.find?_cons_of_neg _ (by simpa using Ne.symm hm)]
    · by_cases h2 : k = k0
      · subst h2
        simp only [h1, if_false, if_true, Bool.false_eq_true]
        rw [List.find?_cons_of_neg _ (by simpa using Ne.symm hm),
          List.find?_cons_of_neg _ (by simpa using Ne.symm hm)]
      · simp only [h1, h2, if_false, Bool.false_eq_true]
        by_cases h3 : k0 = m
        · subst h3
          simp
        · rw [List.find?_cons_of_neg _ (by simpa using h3),
            List.find?_cons_of_neg _ (by simpa using h3)]
          exact ih

theorem contains_eq_find (o : QJsonObject) (k : String) :
    o.contains k = (o.members.find? (fun e => e.1 = k)).isSome := by
  unfold QJsonObject.contains
  induction o.members with
  | nil => rfl
  | cons e t ih =>
    by_cases h : e.1 = k
    · simp [h]
    · rw [List.find?_cons_of_neg _ (by simpa using h)]
      simp [h, ih]

theorem find_eq_none_of_not_mem_keys {l : List (String × QJsonValue)} {m : String}
    (h : m ∉ l.map (fun e => e.1)) : l.find? (fun e => e.1 = m) = none := by
  rw [List.find?_eq_none]
  intro e he hc
  apply h
  simp only [decide_eq_true_eq] at hc
  exact List.mem_map.mpr ⟨e, he, hc⟩

theorem mem_insertEntry {k : String} {v : QJsonValue} {l : List (String × QJsonValue)}
    {e : String × QJsonValue} (h : e ∈ insertEntry k v l) : e = (k, v) ∨ e ∈ l := by
  induction l with
  | nil => simpa [insertEntry] using h
  | cons e0 t ih =>
    obtain ⟨k0, w⟩ := e0
    unfold insertEntry at h
    by_cases h1 : qstringLt k k0 = true
    · simp only [h1, if_true, List.mem_cons] at h
      rcases h with h | h | h
      · exact Or.inl h
      · exact Or.inr (List.mem_cons.mpr (Or.inl h))
      · exact Or.inr (List.mem_cons.mpr (Or.inr h))
    · by_cases h2 : k = k0
      · rw [if_neg h1, if_pos h2] at h
        rcases List.mem_cons.mp h with h3 | h3
        · exact Or.inl h3
        · exact Or.inr (List.mem_cons.mpr (Or.inr h3))
      · simp only [h1, h2, if_false, Bool.false_eq_true, List.mem_cons] at h
        rcases h with h | h
        · exact Or.inr (List.mem_cons.mpr (Or.inl h))
        · rcases ih h with h | h
          · exact Or.inl h
          · exact Or.inr (List.mem_cons.mpr (Or.inr h))

/-- Ordered insertion keeps the members in strictly ascending key order. -/
theorem pairwise_insertEntry (k : String) (v : QJsonValue) {l : List (String × QJsonValue)}
    (hl : l.Pairwise (fun e f => qstringLt e.1 f.1 = true)) :
    (insertEntry k v l).Pairwise (fun e f => qstringLt e.1 f.1 = true) := by
  induction l with
  | nil => simp [insertEntry]
  | cons e0 t ih =>
    obtain ⟨k0, w⟩ := e0
    rw [List.pairwise_cons] at hl
    obtain ⟨h0, ht⟩ := hl
    unfold insertEntry
    by_cases h1 : qstringLt k k0 = true
    · simp only [h1, if_true]
      refine List.pairwise_cons.mpr ⟨?_, List.pairwise_cons.mpr ⟨h0, ht⟩⟩
      intro f hf
      rcases List.mem_cons.mp hf with rfl | hf
      · exact h1
      · exact qstringLt_trans h1 (h0 f hf)
    · by_cases h2 : k = k0
      · subst h2
        simp only [h1, if_false, if_true, Bool.false_eq_true]
        exact List.pairwise_cons.mpr ⟨h0, ht⟩
      · simp only [h1, h2, if_false, Bool.false_eq_true]
        refine List.pairwise_cons.mpr ⟨?_, ih ht⟩
        intro f hf
        rcases mem_insertEntry hf with rfl | hf
        · cases h3 : qstringLt k0 k with
          | true => rfl
          | false =>
            have hf1 : qstringLt k k0 = false := by simpa using h1
            exact absurd (qstringLt_total hf1 h3) h2
        · exact h0 f hf

theorem count_key_of_lt {k : String} {l : List (String × QJsonValue)}
    (h : ∀ f ∈ l, qstringLt k f.1 = true) : (l.map (fun e => e.1)).count k = 0 := by
  apply List.count_eq_zero_of_not_mem
  intro hm
  obtain ⟨f, hf, e⟩ := List.mem_map.mp hm
  exact qstringLt_ne (h f hf) e.symm

/-- After ordered insertion into members in ascending key order the key
occurs once. -/
theorem count_insertEntry (k : String) (v : QJsonValue) {l : List (String × QJsonValue)}
    (hl : l.Pairwise (fun e f => qstringLt e.1 f.1 = true)) :
    ((insertEntry k v l).map (fun e => e.1)).count k = 1 := by
  induction l with
  | nil => simp [insertEntry]
  | cons e0 t ih =>
    obtain ⟨k0, w⟩ := e0
    rw [List.pairwise_cons] at hl
    obtain ⟨h0, ht⟩ := hl
    unfold insertEntry
    by_cases h1 : qstringLt k k0 = true
    · simp only [h1, if_true, List.map_cons, List.count_cons_self]
      have h2 : ∀ f ∈ ((k0, w) :: t), qstringLt k f.1 = true := by
        intro f hf
        rcases List.mem_cons.mp hf with rfl | hf
        · exact h1
        · exact qstringLt_trans h1 (h0 f hf)
      have := count_key_of_lt h2
      simp only [List.map_cons] at this
      rw [this]
    · by_cases h2 : k = k0
      · subst h2
        simp only [h1, if_false, if_true, Bool.false_eq_true, List.map_cons,
          List.count_cons_self]
        rw [count_key_of_lt h0]
      · simp only [h1, h2, if_false, Bool.false_eq_true, List.map_cons]
        rw [List.count_cons_of_ne h2, ih ht]

theorem isUndefined_eq_true {v : QJsonValue} (h : v.isUndefined = true) : v = .undefined := by
  cases v <;> simp [QJsonValue.isUndefined] at h ⊢

theorem value_insert_self (o : QJsonObject) (n : String) (v : QJsonValue) :
    (o.insert n v).value n = v := by
  unfold QJsonObject.insert QJsonObject.value
  cases hv : v.isUndefined with
  | true =>
    simp only [if_true, QJsonObject.remove]
    have hnone : (o.members.filter (fun e => e.1 ≠ n)).find? (fun e => e.1 = n) = none := by
      rw [List.find?_eq_none]
      intro e he
      have := (List.mem_filter.mp he).2
      simpa using this
    rw [hnone, isUndefined_eq_true hv]
  | false =>
    simp only [Bool.false_eq_true, if_false, find_insertEntry_self]

theorem value_insert_other (o : QJsonObject) {n m : String} (hm : m ≠ n) (v : QJsonValue)
    (hv : v.isUndefined = false) : (o.insert n v).value m = o.value m := by
  unfold QJsonObject.insert QJsonObject.value
  simp only [hv, Bool.false_eq_true, if_false, find_insertEntry_other hm]

theorem wellFormed_empty : QJsonObject.empty.WellFormed := List.Pairwise.nil

/-- The operation `insert` keeps the invariant of `QJsonObject`. -/
theorem wellFormed_insert {o : QJsonObject} (h : o.WellFormed) (n : String) (v : QJsonValue) :
    (o.insert n v).WellFormed := by
  unfold QJsonObject.insert
  split
  · exact List.Pairwise.filter _ h
  · exact pairwise_insertEntry n v h

theorem refWriteValue_nestedArrays (n : Nat) :
    refWriteValue (nestedArrays n) =
      List.replicate (n + 1) (91 : Byte) ++ List.replicate (n + 1) (93 : Byte) := by
  induction n with
  | zero => simp [nestedArrays, refWriteValue, refWriteElements]
  | succ n ih =>
    rw [nestedArrays, refWriteValue, refWriteElements, ih]
    simp only [List.replicate_succ, List.cons_append, List.nil_append, List.append_assoc,
      List.singleton_append, List.cons.injEq, true_and]
    rw [← List.replicate_succ, List.replicate_succ']

/-- The reference parser gives up on arrays that reach the nesting limit of
the Qt parser. -/
theorem refParseValue_deep (k : Nat) :
    ∀ (fuel d : Nat) (rest : List Byte), 1024 ≤ d + k →
      refParseValue fuel d (List.replicate (k + 1) (91 : Byte) ++ rest) = none := by
  induction k with
  | zero =>
    intro fuel d rest hd
    cases fuel with
    | zero => rw [refParseValue]
    | succ fuel =>
      have h1 : d + 1 > 1024 := by omega
      simp [refParseValue, h1]
  | succ k ih =>
    intro fuel d rest hd
    cases fuel with
    | zero => rw [refParseValue]
    | succ fuel =>
      by_cases h1 : d + 1 > 1024
      · simp [refParseValue, h1, List.replicate_succ]
      · have hrep : List.replicate (k + 1 + 1) (91 : Byte) ++ rest =
            91 :: (91 :: (List.replicate k (91 : Byte) ++ rest)) := by
          simp [List.replicate_succ]
        have hinner : refParseElements fuel (d + 1)
            (91 :: (List.replicate k (91 : Byte) ++ rest)) [] = none := by
          cases fuel with
          | zero => rw [refParseElements]
          | succ fuel =>
            have := ih fuel (d + 1) rest (by omega)
            simp only [List.replicate_succ, List.cons_append] at this
            rw [refParseElements, this]
        rw [hrep, refParseValue]
        simp [h1, refSkipSpace, hinner]

theorem refFromJson_deep_text (R : List Byte)
    (hR : ∀ fuel, refParseValue fuel 1 (91 :: R) = none) :
    refFromJson (123 :: 34 :: 97 :: 34 :: 58 :: 91 :: R) = none := by
  have hs : ∀ fuel, refParseString (fuel + 2) (97 :: 34 :: 58 :: 91 :: R) [] =
      some ("a", 58 :: 91 :: R) := by
    intro fuel
    rw [refParseString]
    simp only [utf8Decode]
    simp [refParseString]
    rfl
  have hm : ∀ fuel, refParseMembers fuel 1 (34 :: 97 :: 34 :: 58 :: 91 :: R) [] = none := by
    intro fuel
    cases fuel with
    | zero => rw [refParseMembers]
    | succ fuel =>
      rw [refParseMembers]
      have hl : (97 :: 34 :: 58 :: 91 :: R).length + 1 = (R.length + 3) + 2 := by
        simp only [List.length_cons]
      have hsk : refSkipSpace (91 :: R) = 91 :: R := by simp [refSkipSpace]
      simp only [hl, hs, refSkipSpace]
      simp [hsk, hR]
  unfold refFromJson
  have h0 : refSkipSpace (123 :: 34 :: 97 :: 34 :: 58 :: 91 :: R) =
      123 :: 34 :: 97 :: 34 :: 58 :: 91 :: R := by
    simp [refSkipSpace]
  rw [h0, refParseValue]
  simp [refSkipSpace, hm]

theorem refToJson_deep (v : QJsonValue) :
    refToJson (.object ⟨[("a", v)]⟩) =
      123 :: 34 :: 97 :: 34 :: 58 :: (refWriteValue v ++ [125]) := by
  have hs : refWriteString "a" = [34, 97, 34] := by decide
  simp [refToJson, refWriteValue, refWriteMembers, hs]

/-- The reference parser does not read back the claims of `deepInstance`:
their text is nested deeper than the limit of 1024. -/
theorem refFromJson_deepInstance (a : Algorithm) (k : QByteArray) :
    refFromJson (refToJson (.object (deepInstance a k).m_claims)) = none := by
  have hc : (deepInstance a k).m_claims = ⟨[("a", nestedArrays 1023)]⟩ := rfl
  rw [hc, refToJson_deep, refWriteValue_nestedArrays]
  have hrep : List.replicate (1023 + 1) (91 : Byte) ++ List.replicate (1023 + 1) (93 : Byte) ++
      [125] = 91 :: (List.replicate (1022 + 1) (91 : Byte) ++
        (List.replicate (1023 + 1) (93 : Byte) ++ [125])) := by
    rw [List.replicate_succ, List.cons_append, List.cons_append, List.append_assoc]
  rw [hrep]
  apply refFromJson_deep_text
  intro fuel
  have := refParseValue_deep 1023 fuel 1 (List.replicate (1023 + 1) (93 : Byte) ++ [125])
    (by omega)
  rw [List.replicate_succ, List.cons_append] at this
  exact this

theorem parseJson_ok_makeJson (E : Collaborators) (c : QJsonObject) :
    (parseJson E (base64decode (base64encode (makeJson E c)))).2 = true ↔
      ∃ o, E.fromJson (E.toJson (.object c)) = some (.object o) := by
  rw [base64decode_base64encode, parseJson_ok_iff]
  rfl

/-- What `decode` does with a token that `encode` produced when the header
object is read back: the payload phase decides. If the parser accepts the
text written for the claims as an object, the instance takes that object and
the token is accepted exactly when the signature recomputed with the key of
the decoding instance is the one in the token; otherwise the token is
rejected and the claims are empty. -/
theorem decode_encode_header {E : Collaborators} (a a' : Algorithm) (k k' : QByteArray)
    (c c' : QJsonObject) (hh : ReadsBack E (headerObject a)) :
    JsonWebToken.decode E ⟨a', k', c'⟩ (JsonWebToken.encode E ⟨a, k, c⟩) =
      if (parseJson E (makeJson E c)).2 = true then
        (decide (base64encode (JsonWebToken.encrypt E ⟨a, k', QJsonObject.empty⟩
            (signingInput E a c)) =
          base64encode (JsonWebToken.encrypt E ⟨a, k, QJsonObject.empty⟩ (signingInput E a c))),
          ⟨a, k', (parseJson E (makeJson E c)).1⟩)
      else (false, ⟨a, k', QJsonObject.empty⟩) := by
  rw [decode_eq, splitToken_encode]
  simp only [decodePhases_eq, headerAlgorithm_encoded hh, base64decode_base64encode]
  by_cases hp : (parseJson E (makeJson E c)).2 = true
  · simp only [hp, if_true]
    rfl
  · have hf : (parseJson E (makeJson E c)).2 = false := by simpa using hp
    simp only [hf, parseJson_fail hf]
    simp

theorem parseJson_makeJson_ok_iff (E : Collaborators) (c : QJsonObject) :
    (parseJson E (makeJson E c)).2 = true ↔
      ∃ o, E.fromJson (E.toJson (.object c)) = some (.object o) := by
  rw [parseJson_ok_iff]
  rfl

theorem parseJson_makeJson_eq_iff (E : Collaborators) (c : QJsonObject) :
    parseJson E (makeJson E c) = (c, true) ↔ ReadsBack E c := by
  rw [parseJson_eq_iff]
  rfl

theorem refCollaborators_fromJson (d : QByteArray) :
    refCollaborators.fromJson d = refFromJson d := rfl

theorem makeJson_ref (c : QJsonObject) :
    makeJson refCollaborators c = refToJson (.object c) := rfl

theorem parseJson_of_none (E : Collaborators) (d : QByteArray) (h : E.fromJson d = none) :
    (parseJson E d).2 = false := by
  unfold parseJson
  rw [h]

theorem readsBack_ref_headerObject (a : Algorithm) :
    ReadsBack refCollaborators (headerObject a) := by
  cases a <;> rfl

theorem parseJson_ref_deepInstance (a : Algorithm) (k : QByteArray) :
    (parseJson refCollaborators (makeJson refCollaborators (deepInstance a k).m_claims)).2 =
      false :=
  parseJson_of_none refCollaborators _
    ((refCollaborators_fromJson _).trans
      ((congrArg refFromJson (makeJson_ref _)).trans (refFromJson_deepInstance a k)))

/-- On the reference collaborators, a token that `encode` produced for
`deepInstance` is rejected whatever the decoding instance holds: the parser
does not accept the claims, which are nested deeper than its limit. -/
theorem decode_encode_deepInstance (a a' : Algorithm) (k k' : QByteArray) (c' : QJsonObject) :
    JsonWebToken.decode refCollaborators ⟨a', k', c'⟩
        (JsonWebToken.encode refCollaborators (deepInstance a k)) =
      (false, ⟨a, k', QJsonObject.empty⟩) := by
  have hd : deepInstance a k = ⟨a, k, (deepInstance a k).m_claims⟩ := rfl
  rw [hd, decode_encode_header a a' k k' _ c' (readsBack_ref_headerObject a),
    if_neg (by rw [parseJson_ref_deepInstance]; decide)]

/-! ## The properties -/

/-- C1, as amended. Round trip, provided the JSON collaborator reads back the
header object of the algorithm. `decode` of the token that `encode` produced
for algorithm `a`, key `k` and claims `c`, on an instance holding the same
algorithm and key (and any claims), returns true and leaves the instance
with claims `c` exactly when the JSON collaborator reads back `c`; it returns
true exactly when the parser accepts the text written for `c` as an object;
and the algorithm of the instance afterwards is `a`. -/
theorem decode_encode_roundtrip (E : Collaborators) (a : Algorithm) (k : QByteArray)
    (c c' : QJsonObject) (hh : ReadsBack E (headerObject a)) :
    (JsonWebToken.decode E ⟨a, k, c'⟩ (JsonWebToken.encode E ⟨a, k, c⟩) = (true, ⟨a, k, c⟩) ↔
      ReadsBack E c) ∧
    ((JsonWebToken.decode E ⟨a, k, c'⟩ (JsonWebToken.encode E ⟨a, k, c⟩)).1 = true ↔
      ∃ o, E.fromJson (E.toJson (.object c)) = some (.object o)) ∧
    (JsonWebToken.decode E ⟨a, k, c'⟩ (JsonWebToken.encode E ⟨a, k, c⟩)).2.m_algorithm = a := by
  rw [decode_encode_header a a k k c c' hh]
  by_cases hp : (parseJson E (makeJson E c)).2 = true
  · rw [if_pos hp]
    have hd : decide (base64encode (JsonWebToken.encrypt E ⟨a, k, QJsonObject.empty⟩
        (signingInput E a c)) = base64encode (JsonWebToken.encrypt E ⟨a, k, QJsonObject.empty⟩
        (signingInput E a c))) = true := decide_eq_true rfl
    rw [hd]
    refine ⟨?_, ?_, rfl⟩
    · rw [← parseJson_makeJson_eq_iff]
      constructor
      · intro h
        simp only [Prod.mk.injEq, true_and, JsonWebToken.mk.injEq] at h
        exact Prod.ext h hp
      · intro h
        rw [h]
    · exact ⟨fun _ => (parseJson_makeJson_ok_iff E c).mp hp, fun _ => rfl⟩
  · have hn : ¬ ∃ o, E.fromJson (E.toJson (.object c)) = some (.object o) :=
      fun h => hp ((parseJson_makeJson_ok_iff E c).mpr h)
    have hr : ¬ ReadsBack E c := fun h => hn ⟨c, h⟩
    rw [if_neg hp]
    refine ⟨?_, ?_, rfl⟩
    · exact ⟨fun h => absurd (congrArg Prod.fst h) (by simp), fun h => absurd h hr⟩
    · exact ⟨fun h => absurd h (by simp), fun h => absurd h hn⟩
set_option maxRecDepth 1000000 in
theorem decode_encode_roundtrip_witness :
    ReadsBack refCollaborators (headerObject .Hs256) ∧
    ReadsBack refCollaborators exampleClaims ∧
    JsonWebToken.encode refCollaborators ⟨.Hs256, ascii "secret", exampleClaims⟩ =
      ascii ("eyJhbGciOiJIUzI1NiIsInR5cCI6IkpXVCJ9." ++
        "eyJhZG1pbiI6dHJ1ZSwibmFtZSI6IkpvaG4gRG9lIiwic3ViIjoiMTIzNDU2Nzg5MCJ9." ++
        "eNK_fimsCW3Q-meOXyc_dnZHubl2D4eZkIcn6llniCk") ∧
    JsonWebToken.decode refCollaborators ⟨.Hs256, ascii "secret", QJsonObject.empty⟩
        (JsonWebToken.encode refCollaborators ⟨.Hs256, ascii "secret", exampleClaims⟩) =
      (true, ⟨.Hs256, ascii "secret", exampleClaims⟩) ∧
    JsonWebToken.claim
        (JsonWebToken.decode refCollaborators ⟨.Hs256, ascii "secret", QJsonObject.empty⟩
          (JsonWebToken.encode refCollaborators ⟨.Hs256, ascii "secret", exampleClaims⟩)).2
        "admin" = .bool true :=
  ⟨rfl, rfl, by decide,
    (decode_encode_roundtrip refCollaborators .Hs256 (ascii "secret") exampleClaims
      QJsonObject.empty rfl).1.mpr rfl,
    by rw [(decode_encode_roundtrip refCollaborators .Hs256 (ascii "secret") exampleClaims
      QJsonObject.empty rfl).1.mpr rfl]; rfl⟩

/-- C1 fails as stated: a claim set that `addClaim` builds need not come
back. The instance made by the constructor with HS256 and the key `secret`
and one call of `addClaim`, with the name `a` and a value of 1024 arrays
inside one another, is encoded to a token; the JSON parser, whose nesting
limit is 1024, does not accept the payload of that token, and `decode` on an
instance with the same algorithm and key returns false and leaves the claims
empty. -/
theorem roundtrip_deep_claims_rejected :
    deepInstance .Hs256 (ascii "secret") =
      ⟨.Hs256, ascii "secret", ⟨[("a", nestedArrays 1023)]⟩⟩ ∧
    JsonWebToken.decode refCollaborators (JsonWebToken.mk2 .Hs256 (ascii "secret"))
        (JsonWebToken.encode refCollaborators (deepInstance .Hs256 (ascii "secret"))) =
      (false, ⟨.Hs256, ascii "secret", QJsonObject.empty⟩) :=
  ⟨rfl, decode_encode_deepInstance .Hs256 .Hs256 (ascii "secret") (ascii "secret")
    QJsonObject.empty⟩

/-- C2, as amended. Provided the JSON collaborator reads back the header
object of the algorithm: replacing one byte of the header, payload or
signature segment of a token that `encode` produced by a different byte
yields a token that `decode`, with the same key, rejects, unless the byte
lies in the header or payload segment and the code recomputed over the
altered `header.payload` text, with the algorithm that the instance holds
after this `decode`, is the code of the original token. Every alteration of
the signature segment is rejected. -/
theorem tamper_rejected_or_collision (E : Collaborators) (a a' : Algorithm) (k : QByteArray)
    (c c' : QJsonObject) (i : Nat) (x b : Byte)
    (hh : ReadsBack E (headerObject a))
    (hx : (JsonWebToken.encode E ⟨a, k, c⟩)[i]? = some x) (hseg : x ≠ TokenSeparator)
    (hb : b ≠ x) :
    ((JsonWebToken.decode E ⟨a', k, c'⟩ ((JsonWebToken.encode E ⟨a, k, c⟩).set i b)).1 = false ∨
      (i < (signingInput E a c).length ∧
        JsonWebToken.encrypt E
          ⟨(JsonWebToken.decode E ⟨a', k, c'⟩
              ((JsonWebToken.encode E ⟨a, k, c⟩).set i b)).2.m_algorithm,
            k, QJsonObject.empty⟩ ((signingInput E a c).set i b) =
        JsonWebToken.encrypt E ⟨a, k, QJsonObject.empty⟩ (signingInput E a c))) ∧
    ((signingInput E a c).length < i →
      (JsonWebToken.decode E ⟨a', k, c'⟩
        ((JsonWebToken.encode E ⟨a, k, c⟩).set i b)).1 = false) := by
  have main :
      (JsonWebToken.decode E ⟨a', k, c'⟩ ((JsonWebToken.encode E ⟨a, k, c⟩).set i b)).1 = false ∨
      (i < (signingInput E a c).length ∧
        JsonWebToken.encrypt E
          ⟨(JsonWebToken.decode E ⟨a', k, c'⟩
              ((JsonWebToken.encode E ⟨a, k, c⟩).set i b)).2.m_algorithm,
            k, QJsonObject.empty⟩ ((signingInput E a c).set i b) =
        JsonWebToken.encrypt E ⟨a, k, QJsonObject.empty⟩ (signingInput E a c)) := by
    by_cases hd :
        (JsonWebToken.decode E ⟨a', k, c'⟩ ((JsonWebToken.encode E ⟨a, k, c⟩).set i b)).1 = true
    swap
    · left; simpa using hd
    right
    obtain ⟨h2, p2, s2, a2, hsplit, hhead, hparse, hsig, hstate⟩ := decode_true_inv hd
    rw [hstate]
    simp only at hsig ⊢
    have henc : JsonWebToken.encode E ⟨a, k, c⟩ = signingInput E a c ++ TokenSeparator ::
        base64encode (JsonWebToken.encrypt E ⟨a, k, QJsonObject.empty⟩ (signingInput E a c)) :=
      encode_eq E ⟨a, k, c⟩
    rw [henc] at hx hsplit
    generalize hD : signingInput E a c = D at *
    generalize hsb : base64encode (JsonWebToken.encrypt E ⟨a, k, QJsonObject.empty⟩ D) = sb at *
    have hD1 : separatorCount D = 1 := by rw [← hD]; exact separatorCount_signingInput E a c
    have hsb0 : separatorCount sb = 0 := by rw [← hsb]; exact separatorCount_base64encode _
    have hs20 : separatorCount s2 = 0 := by rw [← hsig]; exact separatorCount_base64encode _
    have hcount := splitToken_count hsplit
    rw [separatorCount_set b hx hseg, hs20] at hcount
    have htok : separatorCount (D ++ TokenSeparator :: sb) = 2 := by
      simp only [separatorCount, List.count_append, List.count_cons_self] at hD1 hsb0 ⊢
      omega
    have hbd : b ≠ TokenSeparator := by
      intro e
      rw [htok, if_pos e] at hcount
      omega
    rcases Nat.lt_trichotomy i D.length with hlt | heq | hgt
    · have hxD : D[i]? = some x := by rwa [List.getElem?_append_left hlt] at hx
      rw [List.set_append_left _ _ hlt] at hsplit
      have hc1 : separatorCount (D.set i b) = 1 := by
        rw [separatorCount_set b hxD hseg, hD1, if_neg hbd]
      obtain ⟨h1, p1, e1, hsp⟩ := splitToken_of_count_one sb hc1
      rw [hsp] at hsplit
      simp only [Option.some.injEq, Prod.mk.injEq] at hsplit
      obtain ⟨rfl, rfl, rfl⟩ := hsplit
      refine ⟨hlt, ?_⟩
      apply base64encode_injective
      rw [e1, hsig, hsb]
    · exfalso
      rw [heq, List.getElem?_append_right (Nat.le_refl _)] at hx
      simp only [Nat.sub_self, List.getElem?_cons_zero, Option.some.injEq] at hx
      exact hseg hx.symm
    · exfalso
      obtain ⟨j, hj⟩ : ∃ j, i - D.length = j + 1 := ⟨i - D.length - 1, by omega⟩
      rw [List.set_append_right _ _ (Nat.le_of_lt hgt), hj, List.set_cons_succ] at hsplit
      rw [List.getElem?_append_right (Nat.le_of_lt hgt), hj, List.getElem?_cons_succ] at hx
      have hseg2 := encode_eq_segments E ⟨a, k, c⟩ (sb.set j b)
      simp only [hD] at hseg2
      rw [hseg2, splitToken_segments _ (separator_not_mem_base64encode _)
        (separator_not_mem_base64encode _)] at hsplit
      simp only [Option.some.injEq, Prod.mk.injEq] at hsplit
      obtain ⟨rfl, rfl, rfl⟩ := hsplit
      rw [headerAlgorithm_encoded hh] at hhead
      simp only [Option.some.injEq] at hhead
      subst hhead
      have hDe : D = base64encode (makeJson E (headerObject a)) ++
          TokenSeparator :: base64encode (makeJson E c) := by rw [← hD]; rfl
      rw [← hDe, hsb] at hsig
      have hj2 : j < sb.length := (List.getElem?_eq_some.mp hx).1
      have := congrArg (fun l => l[j]?) hsig
      simp only [hx, List.getElem?_set_self hj2, Option.some.injEq] at this
      exact hb this.symm
  refine ⟨main, ?_⟩
  intro hgt
  rcases main with h | ⟨hlt, _⟩
  · exact h
  · omega

set_option maxRecDepth 1000000 in
theorem tamper_rejected_or_collision_witness :
    ReadsBack refCollaborators (headerObject .Hs256) ∧
    (JsonWebToken.encode refCollaborators ⟨.Hs256, ascii "secret", exampleClaims⟩)[148]? =
      some 107 ∧
    (107 : Byte) ≠ TokenSeparator ∧ (65 : Byte) ≠ 107 ∧
    (signingInput refCollaborators .Hs256 exampleClaims).length < 148 ∧
    (JsonWebToken.decode refCollaborators ⟨.Hs256, ascii "secret", QJsonObject.empty⟩
      ((JsonWebToken.encode refCollaborators ⟨.Hs256, ascii "secret", exampleClaims⟩).set
        148 65)).1 = false :=
  ⟨rfl, by decide, by decide, by decide, by decide,
    (tamper_rejected_or_collision refCollaborators .Hs256 .Hs256 (ascii "secret") exampleClaims
      QJsonObject.empty 148 107 65 rfl (by decide) (by decide) (by decide)).2 (by decide)⟩

/-- C2 fails as stated: with algorithm None nothing is signed. In the token
`eyJhbGciOiJub25lIiwidHlwIjoiSldUIn0.eyJhIjoxfQ.` that `encode` produces for
the claims `{"a":1}`, replacing the byte `x` at index 43, in the payload
segment, by `y` gives a token that `decode` accepts, with the claims
`{"a":2}`. -/
theorem tamper_none_accepted :
    JsonWebToken.encode refCollaborators ⟨.None, [], ⟨[("a", .double 1)]⟩⟩ =
      ascii "eyJhbGciOiJub25lIiwidHlwIjoiSldUIn0.eyJhIjoxfQ." ∧
    (JsonWebToken.encode refCollaborators ⟨.None, [], ⟨[("a", .double 1)]⟩⟩)[43]? = some 120 ∧
    (120 : Byte) ≠ TokenSeparator ∧ (121 : Byte) ≠ 120 ∧
    (JsonWebToken.encode refCollaborators ⟨.None, [], ⟨[("a", .double 1)]⟩⟩).set 43 121 =
      ascii "eyJhbGciOiJub25lIiwidHlwIjoiSldUIn0.eyJhIjoyfQ." ∧
    JsonWebToken.decode refCollaborators ⟨.None, [], QJsonObject.empty⟩
        ((JsonWebToken.encode refCollaborators ⟨.None, [], ⟨[("a", .double 1)]⟩⟩).set 43 121) =
      (true, ⟨.None, [], ⟨[("a", .double 2)]⟩⟩) :=
  ⟨by decide, by decide, by decide, by decide, by decide, rfl⟩

/-- C3, as amended. Provided the JSON collaborator reads back the HS256
header object: a token that `encode` produced with HS256 and key `k1` is
rejected by an HS256 instance with key `k2` exactly when the JSON parser
does not accept the text written for the claim set as an object or the
HMAC-SHA256 codes of the signed text under the two keys differ. A key shorter
than the block of 64 bytes and the same key followed by a zero byte give the
same code. -/
theorem key_mismatch_rejected_iff (E : Collaborators) (k1 k2 : QByteArray) (c c' : QJsonObject)
    (hh : ReadsBack E (headerObject .Hs256)) :
    ((JsonWebToken.decode E ⟨.Hs256, k2, c'⟩ (JsonWebToken.encode E ⟨.Hs256, k1, c⟩)).1 = false ↔
      (¬ ∃ o, E.fromJson (E.toJson (.object c)) = some (.object o)) ∨
      hmac (E.hash .Sha256) (hashBlockSize .Sha256) (signingInput E .Hs256 c) k2 ≠
        hmac (E.hash .Sha256) (hashBlockSize .Sha256) (signingInput E .Hs256 c) k1) ∧
    (k1.length < 64 →
      hmac (E.hash .Sha256) (hashBlockSize .Sha256) (signingInput E .Hs256 c) (k1 ++ [0]) =
        hmac (E.hash .Sha256) (hashBlockSize .Sha256) (signingInput E .Hs256 c) k1) := by
  refine ⟨?_, fun hk => hmac_zero_padded _ _ _ _ hk⟩
  rw [decode_encode_header .Hs256 .Hs256 k1 k2 c c' hh]
  by_cases hp : (parseJson E (makeJson E c)).2 = true
  · have hex : ∃ o, E.fromJson (E.toJson (.object c)) = some (.object o) :=
      (parseJson_makeJson_ok_iff E c).mp hp
    rw [if_pos hp]
    simp only [JsonWebToken.encrypt, if_true, decide_eq_false_iff_not, ne_eq]
    constructor
    · intro h
      right
      intro e
      exact h (by rw [e])
    · rintro (h | h)
      · exact absurd hex h
      · intro e
        exact h (base64encode_injective e)
  · have hn : ¬ ∃ o, E.fromJson (E.toJson (.object c)) = some (.object o) :=
      fun h => hp ((parseJson_makeJson_ok_iff E c).mpr h)
    rw [if_neg hp]
    exact ⟨fun _ => Or.inl hn, fun _ => rfl⟩

set_option maxRecDepth 1000000 in
theorem key_mismatch_rejected_iff_witness :
    ReadsBack refCollaborators (headerObject .Hs256) ∧
    (∃ o, refCollaborators.fromJson (refCollaborators.toJson (.object exampleClaims)) =
      some (.object o)) ∧
    hmac (refCollaborators.hash .Sha256) (hashBlockSize .Sha256)
        (signingInput refCollaborators .Hs256 exampleClaims) (ascii "other") ≠
      hmac (refCollaborators.hash .Sha256) (hashBlockSize .Sha256)
        (signingInput refCollaborators .Hs256 exampleClaims) (ascii "secret") ∧
    (JsonWebToken.decode refCollaborators ⟨.Hs256, ascii "other", QJsonObject.empty⟩
      (JsonWebToken.encode refCollaborators ⟨.Hs256, ascii "secret", exampleClaims⟩)).1 = false :=
  ⟨rfl, ⟨exampleClaims, rfl⟩, by decide,
    (key_mismatch_rejected_iff refCollaborators (ascii "secret") (ascii "other")
      exampleClaims QJsonObject.empty rfl).1.mpr (Or.inr (by decide))⟩

/-- C3 fails as stated: HMAC fills a short key with zero bytes, so the key
`secret` and the key `secret` followed by a zero byte are different keys with
the same codes. A token made with HS256 and the first is accepted by an
HS256 instance that holds the second. -/
theorem key_mismatch_accepted :
    ascii "secret" ++ [0] ≠ ascii "secret" ∧
    JsonWebToken.decode refCollaborators ⟨.Hs256, ascii "secret" ++ [0], QJsonObject.empty⟩
        (JsonWebToken.encode refCollaborators ⟨.Hs256, ascii "secret", exampleClaims⟩) =
      (true, ⟨.Hs256, ascii "secret" ++ [0], exampleClaims⟩) := by
  refine ⟨by decide, ?_⟩
  have hh : ReadsBack refCollaborators (headerObject .Hs256) := rfl
  have hc : ReadsBack refCollaborators exampleClaims := rfl
  rw [decode_encode_general .Hs256 .Hs256 (ascii "secret") (ascii "secret" ++ [0]) exampleClaims
    QJsonObject.empty hh hc]
  have hk : (ascii "secret").length < hashBlockSize .Sha256 := by decide
  simp only [JsonWebToken.encrypt, if_true, hmac_zero_padded _ _ _ _ hk, decide_True]

/-- C4, as amended. Algorithm None: `encode` with algorithm None ends the
token with the separator, its signature segment being empty; and when the
JSON collaborator reads back the header object of None, `decode` of that
token on an instance with algorithm None, whatever key the decoding instance
holds, returns true exactly when the JSON parser accepts the text written
for the claim set as an object. -/
theorem none_token_accepted_any_key (E : Collaborators) (k k' : QByteArray) (c c' : QJsonObject) :
    JsonWebToken.encode E ⟨.None, k, c⟩ = signingInput E .None c ++ [TokenSeparator] ∧
    splitToken (JsonWebToken.encode E ⟨.None, k, c⟩) =
      some (base64encode (makeJson E (headerObject .None)), base64encode (makeJson E c), []) ∧
    (ReadsBack E (headerObject .None) →
      ((JsonWebToken.decode E ⟨.None, k', c'⟩ (JsonWebToken.encode E ⟨.None, k, c⟩)).1 = true ↔
        ∃ o, E.fromJson (E.toJson (.object c)) = some (.object o))) := by
  refine ⟨?_, ?_, ?_⟩
  · rw [encode_eq]; rfl
  · rw [splitToken_encode]; rfl
  · intro hh
    rw [decode_encode_header .None .None k k' c c' hh, ← parseJson_makeJson_ok_iff]
    by_cases hp : (parseJson E (makeJson E c)).2 = true
    · rw [if_pos hp]
      exact ⟨fun _ => hp, fun _ => by simp [JsonWebToken.encrypt]⟩
    · rw [if_neg hp]
      exact ⟨fun h => absurd h (by simp), fun h => absurd h hp⟩

theorem none_token_accepted_any_key_witness :
    ReadsBack refCollaborators (headerObject .None) ∧
    JsonWebToken.encode refCollaborators ⟨.None, ascii "secret", exampleClaims⟩ =
      signingInput refCollaborators .None exampleClaims ++ [TokenSeparator] ∧
    splitToken (JsonWebToken.encode refCollaborators ⟨.None, ascii "secret", exampleClaims⟩) =
      some (base64encode (makeJson refCollaborators (headerObject .None)),
        base64encode (makeJson refCollaborators exampleClaims), []) ∧
    (JsonWebToken.decode refCollaborators ⟨.None, ascii "another key", QJsonObject.empty⟩
      (JsonWebToken.encode refCollaborators ⟨.None, ascii "secret", exampleClaims⟩)).1 = true :=
  ⟨rfl,
    (none_token_accepted_any_key refCollaborators (ascii "secret") (ascii "another key")
      exampleClaims QJsonObject.empty).1,
    (none_token_accepted_any_key refCollaborators (ascii "secret") (ascii "another key")
      exampleClaims QJsonObject.empty).2.1,
    ((none_token_accepted_any_key refCollaborators (ascii "secret") (ascii "another key")
      exampleClaims QJsonObject.empty).2.2 rfl).mpr ⟨exampleClaims, rfl⟩⟩

/-- C4 fails as stated: `decode` of a token that `encode` produced with
algorithm None is not accepted for every claim set. The instance made by the
constructor with None and one call of `addClaim`, with the name `a` and a
value of 1024 arrays inside one another, is encoded to a token that ends with
the separator; the JSON parser, whose nesting limit is 1024, does not accept
its payload, and `decode` on an instance with algorithm None returns
false. -/
theorem none_deep_claims_rejected :
    deepInstance .None (ascii "secret") =
      ⟨.None, ascii "secret", ⟨[("a", nestedArrays 1023)]⟩⟩ ∧
    JsonWebToken.decode refCollaborators (JsonWebToken.mk2 .None (ascii "another key"))
        (JsonWebToken.encode refCollaborators (deepInstance .None (ascii "secret"))) =
      (false, ⟨.None, ascii "another key", QJsonObject.empty⟩) :=
  ⟨rfl, decode_encode_deepInstance .None .None (ascii "secret") (ascii "another key")
    QJsonObject.empty⟩

/-- C5. Malformed structure: a byte string with fewer than two separators is
rejected by `decode`, whatever algorithm, key and claims the instance holds;
the instance is left with its algorithm and key and with no claims. -/
theorem decode_few_separators (E : Collaborators) (t : JsonWebToken) (token : QByteArray)
    (h : separatorCount token < 2) :
    t.decode E token = (false, { t with m_claims := QJsonObject.empty }) := by
  rw [decode_eq, (splitToken_none_iff token).mpr h]

theorem decode_few_separators_witness :
    (separatorCount (ascii "") < 2 ∧
      JsonWebToken.decode refCollaborators ⟨.Hs256, ascii "secret", exampleClaims⟩ (ascii "") =
        (false, ⟨.Hs256, ascii "secret", QJsonObject.empty⟩)) ∧
    (separatorCount (ascii "no-dots-here") < 2 ∧
      JsonWebToken.decode refCollaborators ⟨.Hs256, ascii "secret", exampleClaims⟩
        (ascii "no-dots-here") = (false, ⟨.Hs256, ascii "secret", QJsonObject.empty⟩)) ∧
    (separatorCount (ascii "a.b") < 2 ∧
      JsonWebToken.decode refCollaborators ⟨.Hs256, ascii "secret", exampleClaims⟩ (ascii "a.b") =
        (false, ⟨.Hs256, ascii "secret", QJsonObject.empty⟩)) :=
  ⟨⟨by decide, decode_few_separators refCollaborators _ (ascii "") (by decide)⟩,
    ⟨by decide, decode_few_separators refCollaborators _ (ascii "no-dots-here") (by decide)⟩,
    ⟨by decide, decode_few_separators refCollaborators _ (ascii "a.b") (by decide)⟩⟩

/-- C6. Unknown algorithm: when the header segment of a token decodes to a
JSON object whose `alg` member is a name other than exactly `none`, `HS256`,
`HS384` or `HS512`, `decode` returns false whatever follows the header and
whatever the key is, and the instance keeps the algorithm (and key) it had;
its claims are cleared. -/
theorem decode_unknown_algorithm (E : Collaborators) (t : JsonWebToken) (h rest : QByteArray)
    (o : QJsonObject) (name : String) (hsep : TokenSeparator ∉ h)
    (hparse : parseJson E (base64decode h) = (o, true))
    (halg : o.value KeyAlgorithm = .string name)
    (hname : name ≠ "none" ∧ name ≠ "HS256" ∧ name ≠ "HS384" ∧ name ≠ "HS512") :
    t.decode E (h ++ TokenSeparator :: rest) = (false, { t with m_claims := QJsonObject.empty }) := by
  rw [decode_eq]
  unfold splitToken
  rw [splitAtSeparator_append hsep]
  cases hs : splitAtSeparator rest with
  | none => simp only [hs]
  | some x =>
    obtain ⟨p, s⟩ := x
    simp only [hs, decodePhases_eq]
    rw [headerAlgorithm_eq_none hparse (by rw [halg]; exact algorithmOfName_eq_none hname)]

theorem decode_unknown_algorithm_witness :
    (TokenSeparator ∉ base64encode (makeJson refCollaborators (foreignHeader "RS256")) ∧
      parseJson refCollaborators
        (base64decode (base64encode (makeJson refCollaborators (foreignHeader "RS256")))) =
          (foreignHeader "RS256", true) ∧
      (foreignHeader "RS256").value KeyAlgorithm = .string "RS256" ∧
      ("RS256" ≠ "none" ∧ "RS256" ≠ "HS256" ∧ "RS256" ≠ "HS384" ∧ "RS256" ≠ "HS512") ∧
      JsonWebToken.decode refCollaborators ⟨.Hs256, ascii "secret", exampleClaims⟩
        (base64encode (makeJson refCollaborators (foreignHeader "RS256")) ++
          TokenSeparator :: ascii "eyJhIjoxfQ.c2lnbmF0dXJl") =
        (false, ⟨.Hs256, ascii "secret", QJsonObject.empty⟩)) ∧
    JsonWebToken.decode refCollaborators ⟨.Hs512, ascii "secret", exampleClaims⟩
        (base64encode (makeJson refCollaborators (foreignHeader "hs256")) ++
          TokenSeparator :: ascii "eyJhIjoxfQ.") =
        (false, ⟨.Hs512, ascii "secret", QJsonObject.empty⟩) ∧
    JsonWebToken.decode refCollaborators ⟨.Hs384, ascii "secret", exampleClaims⟩
        (base64encode (makeJson refCollaborators (foreignHeader "None")) ++
          TokenSeparator :: ascii "eyJhIjoxfQ.") =
        (false, ⟨.Hs384, ascii "secret", QJsonObject.empty⟩) :=
  ⟨⟨by decide, rfl, rfl, by decide,
      decode_unknown_algorithm refCollaborators _ _ _ (foreignHeader "RS256") "RS256"
        (by decide) rfl rfl (by decide)⟩,
    decode_unknown_algorithm refCollaborators _ _ _ (foreignHeader "hs256") "hs256"
      (by decide) rfl rfl (by decide),
    decode_unknown_algorithm refCollaborators _ _ _ (foreignHeader "None") "None"
      (by decide) rfl rfl (by decide)⟩

/-- C7. The algorithm-name mapping is a bijection between the four algorithms
and the four names: `setAlgorithmByName(algorithmName(a))` succeeds and sets
the algorithm to `a`; `setAlgorithmByName(n)` succeeds exactly for the names
`none`, `HS256`, `HS384`, `HS512`, after which `algorithmName()` returns `n`;
a failed call leaves the instance as it was; distinct algorithms have
distinct names. -/
theorem algorithm_name_bijection :
    (∀ (t : JsonWebToken) (a : Algorithm),
      t.setAlgorithmByName (JsonWebToken.algorithmName ⟨a, t.m_key, t.m_claims⟩) =
        (true, { t with m_algorithm := a })) ∧
    (∀ (t : JsonWebToken) (n : String),
      (t.setAlgorithmByName n).1 = true ↔
        (n = "none" ∨ n = "HS256" ∨ n = "HS384" ∨ n = "HS512")) ∧
    (∀ (t : JsonWebToken) (n : String),
      (t.setAlgorithmByName n).1 = true → (t.setAlgorithmByName n).2.algorithmName = n) ∧
    (∀ (t : JsonWebToken) (n : String),
      (t.setAlgorithmByName n).1 = false → (t.setAlgorithmByName n).2 = t) ∧
    (∀ (t u : JsonWebToken), t.algorithmName = u.algorithmName → t.m_algorithm = u.m_algorithm) := by
  refine ⟨?_, ?_, ?_, ?_, ?_⟩
  · intro t a
    cases a <;> rfl
  · intro t n
    unfold JsonWebToken.setAlgorithmByName
    split_ifs with h1 h2 h3 h4 <;> simp [*]
  · intro t n
    unfold JsonWebToken.setAlgorithmByName
    split_ifs with h1 h2 h3 h4 <;> simp [JsonWebToken.algorithmName, *]
  · intro t n
    unfold JsonWebToken.setAlgorithmByName
    split_ifs with h1 h2 h3 h4 <;> simp
  · intro t u
    rcases t with ⟨a, _, _⟩
    rcases u with ⟨b, _, _⟩
    cases a <;> cases b <;> simp [JsonWebToken.algorithmName]

/-- C8. Encode format: `encode` returns exactly `D + "." + base64url(S)`,
where `D` is the encoded header `{alg, typ}`, a separator and the encoded
claims, and `S` is the HMAC of `D` under the key with SHA-256, SHA-384 or
SHA-512 for HS256, HS384, HS512, and empty for None. -/
theorem encode_format (E : Collaborators) (a : Algorithm) (k : QByteArray) (c : QJsonObject) :
    JsonWebToken.encode E ⟨a, k, c⟩ = specEncode E a k c := by
  cases a <;> simp [JsonWebToken.encode, specEncode, JsonWebToken.encrypt, specHashFor,
    base64encode, makeJson, hashBlockSize] <;> rfl

/-- C9. Every token returned by `encode` consists of exactly three segments
separated by exactly two separators, and each segment uses only the unpadded
base64url alphabet, which has neither `=` nor `.`. -/
theorem encode_three_segments (E : Collaborators) (t : JsonWebToken) :
    t.encode E =
      base64encode (makeJson E (headerObject t.m_algorithm)) ++ TokenSeparator ::
        (base64encode (makeJson E t.m_claims) ++ TokenSeparator ::
          base64encode (t.encrypt E (signingInput E t.m_algorithm t.m_claims))) ∧
    splitToken (t.encode E) =
      some (base64encode (makeJson E (headerObject t.m_algorithm)),
        base64encode (makeJson E t.m_claims),
        base64encode (t.encrypt E (signingInput E t.m_algorithm t.m_claims))) ∧
    separatorCount (t.encode E) = 2 ∧
    (∀ x ∈ base64encode (makeJson E (headerObject t.m_algorithm)), isBase64urlChar x = true) ∧
    (∀ x ∈ base64encode (makeJson E t.m_claims), isBase64urlChar x = true) ∧
    (∀ x ∈ base64encode (t.encrypt E (signingInput E t.m_algorithm t.m_claims)),
      isBase64urlChar x = true) ∧
    isBase64urlChar 61 = false ∧ isBase64urlChar TokenSeparator = false := by
  have he : t.encode E =
      base64encode (makeJson E (headerObject t.m_algorithm)) ++ TokenSeparator ::
        (base64encode (makeJson E t.m_claims) ++ TokenSeparator ::
          base64encode (t.encrypt E (signingInput E t.m_algorithm t.m_claims))) := by
    rw [encode_eq]
    simp only [signingInput, List.append_assoc, List.cons_append]
  refine ⟨he, splitToken_encode E t, ?_, base64encode_alphabet _, base64encode_alphabet _,
    base64encode_alphabet _, by decide, by decide⟩
  rw [he]
  simp only [separatorCount, List.count_append, List.count_cons_self]
  have h1 := separatorCount_base64encode (makeJson E (headerObject t.m_algorithm))
  have h2 := separatorCount_base64encode (makeJson E t.m_claims)
  have h3 := separatorCount_base64encode (t.encrypt E (signingInput E t.m_algorithm t.m_claims))
  simp only [separatorCount] at h1 h2 h3
  omega

/-- C10. Decode is not atomic on failure. For a token `h.p.s` whose header
segment `h` passes the header phase naming algorithm `a`: when the payload
segment parses to the object `po` and the signature recomputed over `h.p` is
not `s`, `decode` returns false and leaves the instance with algorithm `a`
and claims `po`; when the payload segment does not parse to an object,
`decode` returns false and the instance still has algorithm `a` (and no
claims). -/
theorem decode_not_atomic (E : Collaborators) (a0 a : Algorithm) (k : QByteArray)
    (c0 : QJsonObject) (h p s : QByteArray) (hh : TokenSeparator ∉ h) (hp : TokenSeparator ∉ p)
    (hhead : headerAlgorithm E h = some a) :
    (∀ po : QJsonObject, parseJson E (base64decode p) = (po, true) →
      base64encode (JsonWebToken.encrypt E ⟨a, k, po⟩ (h ++ TokenSeparator :: p)) ≠ s →
      JsonWebToken.decode E ⟨a0, k, c0⟩ (h ++ TokenSeparator :: (p ++ TokenSeparator :: s)) =
        (false, ⟨a, k, po⟩)) ∧
    ((parseJson E (base64decode p)).2 = false →
      JsonWebToken.decode E ⟨a0, k, c0⟩ (h ++ TokenSeparator :: (p ++ TokenSeparator :: s)) =
        (false, ⟨a, k, QJsonObject.empty⟩)) := by
  refine ⟨?_, ?_⟩
  · intro po hpo hsig
    rw [decode_eq, splitToken_segments s hh hp]
    simp only [decodePhases_eq, hhead, hpo, if_true]
    have : ¬ base64encode (JsonWebToken.encrypt E ⟨a, k, QJsonObject.empty⟩
        (h ++ TokenSeparator :: p)) = s := hsig
    simp [this]
  · intro hfail
    rw [decode_eq, splitToken_segments s hh hp]
    simp only [decodePhases_eq, hhead, hfail, parseJson_fail hfail]
    simp

theorem decode_not_atomic_witness :
    TokenSeparator ∉ ascii "eyJhbGciOiJIUzI1NiIsInR5cCI6IkpXVCJ9" ∧
    TokenSeparator ∉ ascii "eyJhIjoxfQ" ∧
    headerAlgorithm refCollaborators (ascii "eyJhbGciOiJIUzI1NiIsInR5cCI6IkpXVCJ9") = some .Hs256 ∧
    JsonWebToken.decode refCollaborators ⟨.None, ascii "secret", exampleClaims⟩
        (ascii "eyJhbGciOiJIUzI1NiIsInR5cCI6IkpXVCJ9" ++ TokenSeparator ::
          (ascii "eyJhIjoxfQ" ++ TokenSeparator :: ascii "not.the.signature")) =
      (false, ⟨.Hs256, ascii "secret", ⟨[("a", .double 1)]⟩⟩) ∧
    JsonWebToken.decode refCollaborators ⟨.None, ascii "secret", exampleClaims⟩
        (ascii "eyJhbGciOiJIUzI1NiIsInR5cCI6IkpXVCJ9" ++ TokenSeparator ::
          (ascii "e30x" ++ TokenSeparator :: ascii "")) =
      (false, ⟨.Hs256, ascii "secret", QJsonObject.empty⟩) :=
  ⟨by decide, by decide, by decide,
    (decode_not_atomic refCollaborators .None .Hs256 (ascii "secret") exampleClaims
      (ascii "eyJhbGciOiJIUzI1NiIsInR5cCI6IkpXVCJ9") (ascii "eyJhIjoxfQ")
      (ascii "not.the.signature") (by decide) (by decide) (by decide)).1
        ⟨[("a", .double 1)]⟩ rfl
        (fun h => separator_not_mem_base64encode _ (by rw [h]; decide)),
    (decode_not_atomic refCollaborators .None .Hs256 (ascii "secret") exampleClaims
      (ascii "eyJhbGciOiJIUzI1NiIsInR5cCI6IkpXVCJ9") (ascii "e30x") (ascii "")
      (by decide) (by decide) (by decide)).2 (by decide)⟩

/-- C13. Characterisation of the result of `decode`: it returns true exactly
when (1) the token has at least two separators, (2) its first segment decodes
and parses to a JSON object that passes the header checks and names an
algorithm `a`, (3) its second segment decodes and parses to a JSON object,
and (4) the encoded code of `first + "." + second`, the text of the token
itself, under `a` and the key of the instance is byte for byte the third
segment; the code is empty when `a` is None. -/
theorem decode_true_iff (E : Collaborators) (t : JsonWebToken) (token : QByteArray) :
    (t.decode E token).1 = true ↔
      ∃ (h p s : QByteArray) (a : Algorithm) (o c : QJsonObject),
        (2 ≤ separatorCount token ∧ splitToken token = some (h, p, s) ∧
          token = h ++ TokenSeparator :: (p ++ TokenSeparator :: s)) ∧
        (E.fromJson (base64decode h) = some (.object o) ∧ HeaderNames o a) ∧
        E.fromJson (base64decode p) = some (.object c) ∧
        base64encode (specMac E a t.m_key (h ++ TokenSeparator :: p)) = s := by
  constructor
  · intro hd
    obtain ⟨h, p, s, a, hsplit, hhead, hparse, hsig, _⟩ := decode_true_inv hd
    obtain ⟨o, ho, hn⟩ := (headerAlgorithm_eq_some_iff E h a).mp hhead
    obtain ⟨c, hc⟩ := (parseJson_ok_iff E _).mp hparse
    have hcount : 2 ≤ separatorCount token := by
      rw [splitToken_count hsplit]; omega
    refine ⟨h, p, s, a, o, c, ⟨hcount, hsplit, (splitToken_some hsplit).1⟩, ⟨ho, hn⟩, hc, ?_⟩
    rw [← hsig, encrypt_eq_specMac]
  · rintro ⟨h, p, s, a, o, c, ⟨_, hsplit, _⟩, ⟨ho, hn⟩, hc, hsig⟩
    have hhead := (headerAlgorithm_eq_some_iff E h a).mpr ⟨o, ho, hn⟩
    have hp := (parseJson_eq_iff E _ c).mpr hc
    rw [decode_eq, hsplit]
    simp only [decodePhases_eq, hhead, hp, if_true, encrypt_eq_specMac, hsig, decide_True]

/-- C14. Header phase acceptance: `decodeHeader` returns true exactly when the
decoded bytes parse as a JSON object with a `typ` member whose value is the
string `JWT` and an `alg` member whose value is one of the strings `none`,
`HS256`, `HS384`, `HS512`; nothing else in the object matters, and a `typ` or
`alg` that is not a string is rejected. On success the algorithm of the
instance becomes the named one, on failure the instance is unchanged. -/
theorem decodeHeader_accepts_iff (E : Collaborators) (t : JsonWebToken) (data : QByteArray) :
    ((t.decodeHeader E data).1 = true ↔
      ∃ (o : QJsonObject) (a : Algorithm),
        E.fromJson (base64decode data) = some (.object o) ∧ HeaderNames o a) ∧
    (∀ (o : QJsonObject) (a : Algorithm),
      E.fromJson (base64decode data) = some (.object o) → HeaderNames o a →
        t.decodeHeader E data = (true, { t with m_algorithm := a })) ∧
    (∀ o : QJsonObject, E.fromJson (base64decode data) = some (.object o) →
      ((∀ s, o.value KeyType ≠ .string s) ∨ (∀ s, o.value KeyAlgorithm ≠ .string s)) →
        (t.decodeHeader E data).1 = false) ∧
    ((t.decodeHeader E data).1 = false → (t.decodeHeader E data).2 = t) := by
  have key : ∀ a, headerAlgorithm E data = some a →
      t.decodeHeader E data = (true, { t with m_algorithm := a }) := by
    intro a ha
    rw [decodeHeader_eq, ha]
  have hiff : (t.decodeHeader E data).1 = true ↔
      ∃ (o : QJsonObject) (a : Algorithm),
        E.fromJson (base64decode data) = some (.object o) ∧ HeaderNames o a := by
    constructor
    · intro hd
      rw [decodeHeader_eq] at hd
      cases ha : headerAlgorithm E data with
      | none => simp [ha] at hd
      | some a =>
        obtain ⟨o, ho, hn⟩ := (headerAlgorithm_eq_some_iff E data a).mp ha
        exact ⟨o, a, ho, hn⟩
    · rintro ⟨o, a, ho, hn⟩
      rw [key a ((headerAlgorithm_eq_some_iff E data a).mpr ⟨o, ho, hn⟩)]
  refine ⟨hiff, ?_, ?_, ?_⟩
  · intro o a ho hn
    exact key a ((headerAlgorithm_eq_some_iff E data a).mpr ⟨o, ho, hn⟩)
  · intro o ho hbad
    by_contra hne
    have htrue : (t.decodeHeader E data).1 = true := by simpa using hne
    obtain ⟨o2, a, ho2, hn⟩ := hiff.mp htrue
    rw [ho] at ho2
    simp only [Option.some.injEq, QJsonDocument.object.injEq] at ho2
    subst ho2
    rcases hbad with hb | hb
    · exact hb _ hn.2.1
    · exact hb _ hn.2.2.2
  · intro hf
    rw [decodeHeader_eq] at hf ⊢
    cases ha : headerAlgorithm E data with
    | none => rfl
    | some a => simp [ha] at hf

/-- C15. Segment splitting: in a token with at least two separators, with
`pos1` the index of the first separator and `pos2` the index of the first
separator after it, `left(pos1)` is the header `h`, the bytes before `pos1`;
`mid(pos1 + 1, pos2 - pos1 - 1)` is the payload `p`, the bytes between the two;
`right(length - pos2 - 1)` is the signature `s`, every byte after `pos2`.
Neither `h` nor `p` holds a separator, `h + "." + p + "." + s` is the token
and `left(pos2)` is `h + "." + p`. On such a token `decode` clears the claims
and runs `decodeHeader` on `h`, then `decodePayload` on `p`, then `validate`
on the text `h + "." + p` and the signature `s`, returning false at the first
phase that fails. -/
theorem segment_splitting (E : Collaborators) (t : JsonWebToken) (token : QByteArray)
    (h2 : 2 ≤ separatorCount token) :
    ∃ h p s : QByteArray,
      token = h ++ TokenSeparator :: (p ++ TokenSeparator :: s) ∧
      TokenSeparator ∉ h ∧ TokenSeparator ∉ p ∧
      indexOf token TokenSeparator 0 = (h.length : Int) ∧
      indexOf token TokenSeparator (indexOf token TokenSeparator 0 + 1) =
        ((h.length + 1 + p.length : Nat) : Int) ∧
      left token (indexOf token TokenSeparator 0) = h ∧
      mid token (indexOf token TokenSeparator 0 + 1)
        (indexOf token TokenSeparator (indexOf token TokenSeparator 0 + 1) -
          indexOf token TokenSeparator 0 - 1) = p ∧
      right token ((token.length : Int) -
        indexOf token TokenSeparator (indexOf token TokenSeparator 0 + 1) - 1) = s ∧
      left token (indexOf token TokenSeparator (indexOf token TokenSeparator 0 + 1)) =
        h ++ TokenSeparator :: p ∧
      t.decode E token =
        if (JsonWebToken.decodeHeader E ⟨t.m_algorithm, t.m_key, QJsonObject.empty⟩ h).1 = false
        then (false, (JsonWebToken.decodeHeader E ⟨t.m_algorithm, t.m_key, QJsonObject.empty⟩ h).2)
        else if (JsonWebToken.decodePayload E
            (JsonWebToken.decodeHeader E ⟨t.m_algorithm, t.m_key, QJsonObject.empty⟩ h).2 p).1 = false
        then (false, (JsonWebToken.decodePayload E
            (JsonWebToken.decodeHeader E ⟨t.m_algorithm, t.m_key, QJsonObject.empty⟩ h).2 p).2)
        else (JsonWebToken.validate E (JsonWebToken.decodePayload E
            (JsonWebToken.decodeHeader E ⟨t.m_algorithm, t.m_key, QJsonObject.empty⟩ h).2 p).2
              (h ++ TokenSeparator :: p) s,
          (JsonWebToken.decodePayload E
            (JsonWebToken.decodeHeader E ⟨t.m_algorithm, t.m_key, QJsonObject.empty⟩ h).2 p).2) := by
  obtain ⟨⟨h, p, s⟩, hs⟩ := splitToken_isSome_of_count h2
  obtain ⟨e, n1, n2⟩ := splitToken_some hs
  obtain ⟨i1, i2, hl, hm, hr, hd⟩ := segments_of_split hs
  refine ⟨h, p, s, e, n1, n2, i1, ?_, ?_, ?_, ?_, ?_, ?_⟩
  · rw [i1, i2]
  · rw [i1, hl]
  · rw [i1, i2, hm]
  · rw [i1, i2, hr]
  · rw [i1, i2, hd]
  · rw [decode_eq, hs]
    simp only [decodePhases]
    cases (JsonWebToken.decodeHeader E ⟨t.m_algorithm, t.m_key, QJsonObject.empty⟩ h).1 <;>
      cases (JsonWebToken.decodePayload E
        (JsonWebToken.decodeHeader E ⟨t.m_algorithm, t.m_key, QJsonObject.empty⟩ h).2 p).1 <;>
      simp

set_option maxRecDepth 100000 in
theorem segment_splitting_witness :
    2 ≤ separatorCount (ascii "ab.cde..f") ∧
    (∃ h p s : QByteArray,
      ascii "ab.cde..f" = h ++ TokenSeparator :: (p ++ TokenSeparator :: s) ∧
      TokenSeparator ∉ h ∧ TokenSeparator ∉ p ∧
      indexOf (ascii "ab.cde..f") TokenSeparator 0 = (h.length : Int) ∧
      indexOf (ascii "ab.cde..f") TokenSeparator
          (indexOf (ascii "ab.cde..f") TokenSeparator 0 + 1) =
        ((h.length + 1 + p.length : Nat) : Int) ∧
      left (ascii "ab.cde..f") (indexOf (ascii "ab.cde..f") TokenSeparator 0) = h ∧
      mid (ascii "ab.cde..f") (indexOf (ascii "ab.cde..f") TokenSeparator 0 + 1)
        (indexOf (ascii "ab.cde..f") TokenSeparator
            (indexOf (ascii "ab.cde..f") TokenSeparator 0 + 1) -
          indexOf (ascii "ab.cde..f") TokenSeparator 0 - 1) = p ∧
      right (ascii "ab.cde..f") (((ascii "ab.cde..f").length : Int) -
        indexOf (ascii "ab.cde..f") TokenSeparator
          (indexOf (ascii "ab.cde..f") TokenSeparator 0 + 1) - 1) = s ∧
      left (ascii "ab.cde..f") (indexOf (ascii "ab.cde..f") TokenSeparator
          (indexOf (ascii "ab.cde..f") TokenSeparator 0 + 1)) =
        h ++ TokenSeparator :: p ∧
      JsonWebToken.decode refCollaborators JsonWebToken.new (ascii "ab.cde..f") =
        if (JsonWebToken.decodeHeader refCollaborators JsonWebToken.new h).1 = false
        then (false, (JsonWebToken.decodeHeader refCollaborators JsonWebToken.new h).2)
        else if (JsonWebToken.decodePayload refCollaborators
            (JsonWebToken.decodeHeader refCollaborators JsonWebToken.new h).2 p).1 = false
        then (false, (JsonWebToken.decodePayload refCollaborators
            (JsonWebToken.decodeHeader refCollaborators JsonWebToken.new h).2 p).2)
        else (JsonWebToken.validate refCollaborators (JsonWebToken.decodePayload refCollaborators
            (JsonWebToken.decodeHeader refCollaborators JsonWebToken.new h).2 p).2
              (h ++ TokenSeparator :: p) s,
          (JsonWebToken.decodePayload refCollaborators
            (JsonWebToken.decodeHeader refCollaborators JsonWebToken.new h).2 p).2)) ∧
    left (ascii "ab.cde..f") (indexOf (ascii "ab.cde..f") TokenSeparator 0) = ascii "ab" ∧
    mid (ascii "ab.cde..f") (indexOf (ascii "ab.cde..f") TokenSeparator 0 + 1)
      (indexOf (ascii "ab.cde..f") TokenSeparator
          (indexOf (ascii "ab.cde..f") TokenSeparator 0 + 1) -
        indexOf (ascii "ab.cde..f") TokenSeparator 0 - 1) = ascii "cde" ∧
    right (ascii "ab.cde..f") (((ascii "ab.cde..f").length : Int) -
      indexOf (ascii "ab.cde..f") TokenSeparator
        (indexOf (ascii "ab.cde..f") TokenSeparator 0 + 1) - 1) = ascii ".f" ∧
    left (ascii "ab.cde..f") (indexOf (ascii "ab.cde..f") TokenSeparator
      (indexOf (ascii "ab.cde..f") TokenSeparator 0 + 1)) = ascii "ab.cde" :=
  ⟨by decide, segment_splitting refCollaborators JsonWebToken.new (ascii "ab.cde..f") (by decide),
    by decide, by decide, by decide, by decide⟩

/-- C17. Decode ignores the algorithm and claims the instance was configured
with: two instances that hold the same key return the same boolean for every
token, and whenever the header phase succeeds they end in the same state. In
particular an instance configured with any algorithm and any key accepts a
token whose header is `{"alg":"none","typ":"JWT"}`, whose payload is any JSON
object and whose signature segment is empty, and ends with algorithm None
and the claims of the payload. -/
theorem decode_ignores_prior_state (E : Collaborators) (k : QByteArray) (token : QByteArray)
    (a1 a2 : Algorithm) (c1 c2 : QJsonObject) :
    (JsonWebToken.decode E ⟨a1, k, c1⟩ token).1 = (JsonWebToken.decode E ⟨a2, k, c2⟩ token).1 ∧
    (∀ h p s : QByteArray, splitToken token = some (h, p, s) →
      (JsonWebToken.decodeHeader E ⟨a1, k, c1⟩ h).1 = true →
        (JsonWebToken.decode E ⟨a1, k, c1⟩ token).2 =
          (JsonWebToken.decode E ⟨a2, k, c2⟩ token).2) ∧
    (∀ (h p : QByteArray) (c : QJsonObject), TokenSeparator ∉ h → TokenSeparator ∉ p →
      E.fromJson (base64decode h) = some (.object (headerObject .None)) →
      E.fromJson (base64decode p) = some (.object c) →
        JsonWebToken.decode E ⟨a1, k, c1⟩ (h ++ TokenSeparator :: (p ++ [TokenSeparator])) =
          (true, ⟨.None, k, c⟩)) := by
  refine ⟨?_, ?_, ?_⟩
  · rw [decode_eq, decode_eq]
    cases hs : splitToken token with
    | none => rfl
    | some x =>
      obtain ⟨h, p, s⟩ := x
      simp only [decodePhases_eq]
      cases headerAlgorithm E h with
      | none => rfl
      | some a => rfl
  · intro h p s hs hh
    rw [decodeHeader_flag] at hh
    rw [decode_eq, decode_eq, hs]
    simp only [decodePhases_eq]
    cases ha : headerAlgorithm E h with
    | none => simp [ha] at hh
    | some a => rfl
  · intro h p c n1 n2 hh hp
    have hhead := (headerAlgorithm_eq_some_iff E h .None).mpr
      ⟨headerObject .None, hh, headerNames_headerObject .None⟩
    have hpp := (parseJson_eq_iff E _ c).mpr hp
    rw [decode_eq, splitToken_segments [] n1 n2]
    simp only [decodePhases_eq, hhead, hpp, if_true]
    simp [JsonWebToken.encrypt, base64encode, toBase64]

theorem decode_ignores_prior_state_witness :
    JsonWebToken.decode refCollaborators ⟨.Hs256, ascii "secret", exampleClaims⟩
        (ascii "eyJhbGciOiJub25lIiwidHlwIjoiSldUIn0.eyJhIjoxfQ.") =
      (true, ⟨.None, ascii "secret", ⟨[("a", .double 1)]⟩⟩) ∧
    JsonWebToken.decode refCollaborators ⟨.Hs512, ascii "secret", QJsonObject.empty⟩
        (ascii "eyJhbGciOiJub25lIiwidHlwIjoiSldUIn0.eyJhIjoxfQ.") =
      (true, ⟨.None, ascii "secret", ⟨[("a", .double 1)]⟩⟩) :=
  ⟨(decode_ignores_prior_state refCollaborators (ascii "secret") [] .Hs256 .None exampleClaims
      QJsonObject.empty).2.2 (ascii "eyJhbGciOiJub25lIiwidHlwIjoiSldUIn0") (ascii "eyJhIjoxfQ")
      ⟨[("a", .double 1)]⟩ (by decide) (by decide) rfl rfl,
    (decode_ignores_prior_state refCollaborators (ascii "secret") [] .Hs512 .None
      QJsonObject.empty QJsonObject.empty).2.2 (ascii "eyJhbGciOiJub25lIiwidHlwIjoiSldUIn0")
      (ascii "eyJhIjoxfQ") ⟨[("a", .double 1)]⟩ (by decide) (by decide) rfl rfl⟩

/-- C18. State after an early failure of `decode`. The key never changes.
When the token has fewer than two separators, or the header phase fails,
`decode` returns false and leaves the algorithm as it was and the claim set
empty: `claims()` is empty and `contains(n)` is false for every `n`. When the
header phase succeeds and the payload phase fails, `decode` returns false and
the claim set is empty too. -/
theorem decode_early_failure_state (E : Collaborators) (t : JsonWebToken) (token : QByteArray) :
    (t.decode E token).2.m_key = t.m_key ∧
    (separatorCount token < 2 →
      t.decode E token = (false, { t with m_claims := QJsonObject.empty }) ∧
      (t.decode E token).2.m_algorithm = t.m_algorithm ∧
      (t.decode E token).2.claims = [] ∧ ∀ n, (t.decode E token).2.contains n = false) ∧
    (∀ h p s : QByteArray, splitToken token = some (h, p, s) →
      (t.decodeHeader E h).1 = false →
        t.decode E token = (false, { t with m_claims := QJsonObject.empty }) ∧
        (t.decode E token).2.m_algorithm = t.m_algorithm ∧
        (t.decode E token).2.claims = [] ∧ ∀ n, (t.decode E token).2.contains n = false) ∧
    (∀ h p s : QByteArray, splitToken token = some (h, p, s) →
      (t.decodeHeader E h).1 = true → ((t.decodeHeader E h).2.decodePayload E p).1 = false →
        (t.decode E token).1 = false ∧
        (t.decode E token).2.m_claims = QJsonObject.empty ∧
        (t.decode E token).2.claims = [] ∧ ∀ n, (t.decode E token).2.contains n = false) := by
  refine ⟨decode_key E t token, ?_, ?_, ?_⟩
  · intro hc
    have hd : t.decode E token = (false, { t with m_claims := QJsonObject.empty }) := by
      rw [decode_eq, (splitToken_none_iff token).mpr hc]
    rw [hd]
    exact ⟨rfl, rfl, empty_claims _ rfl⟩
  · intro h p s hs hh
    rw [decodeHeader_flag] at hh
    have hn : headerAlgorithm E h = none := by
      cases ha : headerAlgorithm E h with
      | none => rfl
      | some a => simp [ha] at hh
    have hd : t.decode E token = (false, { t with m_claims := QJsonObject.empty }) := by
      rw [decode_eq, hs]
      simp only [decodePhases_eq, hn]
    rw [hd]
    exact ⟨rfl, rfl, empty_claims _ rfl⟩
  · intro h p s hs hh hp
    rw [decodePayload_flag] at hp
    rw [decodeHeader_flag] at hh
    cases ha : headerAlgorithm E h with
    | none => simp [ha] at hh
    | some a =>
      have hd : t.decode E token = (false, ⟨a, t.m_key, QJsonObject.empty⟩) := by
        rw [decode_eq, hs]
        simp only [decodePhases_eq, ha, hp, parseJson_fail hp]
        simp
      rw [hd]
      exact ⟨rfl, rfl, empty_claims _ rfl⟩

theorem decode_early_failure_state_witness :
    JsonWebToken.decode refCollaborators ⟨.Hs256, ascii "secret", exampleClaims⟩ (ascii "a.b") =
      (false, ⟨.Hs256, ascii "secret", QJsonObject.empty⟩) ∧
    JsonWebToken.decode refCollaborators ⟨.Hs256, ascii "secret", exampleClaims⟩
        (ascii "e30.e30.") = (false, ⟨.Hs256, ascii "secret", QJsonObject.empty⟩) ∧
    (JsonWebToken.decode refCollaborators ⟨.Hs256, ascii "secret", exampleClaims⟩
        (ascii "eyJhbGciOiJub25lIiwidHlwIjoiSldUIn0.e30x.")).2.m_claims = QJsonObject.empty ∧
    JsonWebToken.contains
      (JsonWebToken.decode refCollaborators ⟨.Hs256, ascii "secret", exampleClaims⟩
        (ascii "a.b")).2 "admin" = false :=
  ⟨((decode_early_failure_state refCollaborators ⟨.Hs256, ascii "secret", exampleClaims⟩
      (ascii "a.b")).2.1 (by decide)).1,
    ((decode_early_failure_state refCollaborators ⟨.Hs256, ascii "secret", exampleClaims⟩
      (ascii "e30.e30.")).2.2.1 (ascii "e30") (ascii "e30") [] (by decide) (by decide)).1,
    ((decode_early_failure_state refCollaborators ⟨.Hs256, ascii "secret", exampleClaims⟩
      (ascii "eyJhbGciOiJub25lIiwidHlwIjoiSldUIn0.e30x.")).2.2.2
        (ascii "eyJhbGciOiJub25lIiwidHlwIjoiSldUIn0") (ascii "e30x") [] (by decide) (by decide)
        (by decide)).2.1,
    ((decode_early_failure_state refCollaborators ⟨.Hs256, ascii "secret", exampleClaims⟩
      (ascii "a.b")).2.1 (by decide)).2.2.2 "admin"⟩

/-- C19. Accepted tokens have exactly three segments: when `decode` returns
true the token has exactly two separators and its third segment is the
unpadded base64url encoding of the recomputed code, with no `=` and nothing
after it. Hence a token with three or more separators, and a token whose
signature segment holds a `=`, is rejected. -/
theorem accepted_token_three_segments (E : Collaborators) (t : JsonWebToken)
    (token : QByteArray) :
    ((t.decode E token).1 = true →
      separatorCount token = 2 ∧
      ∃ h p s : QByteArray, splitToken token = some (h, p, s) ∧
        s = base64encode ((t.decode E token).2.encrypt E (h ++ TokenSeparator :: p)) ∧
        (∀ x ∈ s, isBase64urlChar x = true) ∧ (61 : Byte) ∉ s ∧ TokenSeparator ∉ s) ∧
    (3 ≤ separatorCount token → (t.decode E token).1 = false) ∧
    (∀ h p s : QByteArray, splitToken token = some (h, p, s) → (61 : Byte) ∈ s →
      (t.decode E token).1 = false) := by
  have main : (t.decode E token).1 = true →
      separatorCount token = 2 ∧
      ∃ h p s : QByteArray, splitToken token = some (h, p, s) ∧
        s = base64encode ((t.decode E token).2.encrypt E (h ++ TokenSeparator :: p)) ∧
        (∀ x ∈ s, isBase64urlChar x = true) ∧ (61 : Byte) ∉ s ∧ TokenSeparator ∉ s := by
    intro hd
    obtain ⟨h, p, s, a, hsplit, _, _, hsig, hstate⟩ := decode_true_inv hd
    have hs : s = base64encode ((t.decode E token).2.encrypt E (h ++ TokenSeparator :: p)) := by
      rw [hstate, ← hsig]
      rfl
    have halpha : ∀ x ∈ s, isBase64urlChar x = true := by
      rw [← hsig]; exact base64encode_alphabet _
    have hdot : TokenSeparator ∉ s := by
      rw [← hsig]; exact separator_not_mem_base64encode _
    have hpad : (61 : Byte) ∉ s := by
      intro hm
      have := halpha _ hm
      exact absurd this (by decide)
    refine ⟨?_, h, p, s, hsplit, hs, halpha, hpad, hdot⟩
    rw [splitToken_count hsplit, separatorCount, List.count_eq_zero_of_not_mem hdot]
  refine ⟨main, ?_, ?_⟩
  · intro h3
    by_contra hne
    have hd : (t.decode E token).1 = true := by simpa using hne
    have := (main hd).1
    omega
  · intro h p s hs hmem
    by_contra hne
    have hd : (t.decode E token).1 = true := by simpa using hne
    obtain ⟨_, h2, p2, s2, hs2, _, _, hpad, _⟩ := main hd
    rw [hs] at hs2
    simp only [Option.some.injEq, Prod.mk.injEq] at hs2
    obtain ⟨_, _, rfl⟩ := hs2
    exact hpad hmem

/-- C11. The signature segment may be empty only for algorithm None. When
`decode` returns true for a token whose third segment is empty, the header of
the token names None and the instance ends with algorithm None; a token
whose header names HS256, HS384 or HS512 and whose signature segment is empty
is rejected; and the token that `encode` produces is three segments `h`, `p`
and `s` without a separator in them, joined by two separators, of which the
signature segment `s` is empty exactly when the algorithm of the instance is
None. The hash collaborator is assumed to return digests that are not
empty. -/
theorem empty_signature_only_none (E : Collaborators) (hdigest : ∀ m x, E.hash m x ≠ []) :
    (∀ (t : JsonWebToken) (token h p : QByteArray),
      (t.decode E token).1 = true → splitToken token = some (h, p, []) →
        (∃ o, E.fromJson (base64decode h) = some (.object o) ∧ HeaderNames o .None) ∧
        (t.decode E token).2.m_algorithm = .None) ∧
    (∀ (t : JsonWebToken) (h p : QByteArray) (o : QJsonObject) (a : Algorithm),
      TokenSeparator ∉ h → TokenSeparator ∉ p →
      E.fromJson (base64decode h) = some (.object o) → HeaderNames o a → a ≠ .None →
        (t.decode E (h ++ TokenSeparator :: (p ++ [TokenSeparator]))).1 = false) ∧
    (∀ t : JsonWebToken, ∃ h p s : QByteArray,
      t.encode E = h ++ TokenSeparator :: (p ++ TokenSeparator :: s) ∧
      TokenSeparator ∉ h ∧ TokenSeparator ∉ p ∧ TokenSeparator ∉ s ∧
      splitToken (t.encode E) = some (h, p, s) ∧
      (s = [] ↔ t.m_algorithm = .None)) := by
  have first : ∀ (t : JsonWebToken) (token h p : QByteArray),
      (t.decode E token).1 = true → splitToken token = some (h, p, []) →
        (∃ o, E.fromJson (base64decode h) = some (.object o) ∧ HeaderNames o .None) ∧
        (t.decode E token).2.m_algorithm = .None := by
    intro t token h p hd hs
    obtain ⟨h2, p2, s2, a, hsplit, hhead, _, hsig, hstate⟩ := decode_true_inv hd
    rw [hs] at hsplit
    simp only [Option.some.injEq, Prod.mk.injEq] at hsplit
    obtain ⟨rfl, rfl, rfl⟩ := hsplit
    have ha : a = .None :=
      (encrypt_eq_nil_iff hdigest ⟨a, t.m_key, QJsonObject.empty⟩ _).mp
        (base64encode_eq_nil.mp hsig)
    subst ha
    refine ⟨(headerAlgorithm_eq_some_iff E h .None).mp hhead, ?_⟩
    rw [hstate]
  refine ⟨first, ?_, ?_⟩
  · intro t h p o a n1 n2 ho hn hne
    by_contra hc
    have hd : (t.decode E (h ++ TokenSeparator :: (p ++ [TokenSeparator]))).1 = true := by
      simpa using hc
    obtain ⟨⟨o2, ho2, hn2⟩, _⟩ := first t _ h p hd (splitToken_segments [] n1 n2)
    rw [ho] at ho2
    simp only [Option.some.injEq, QJsonDocument.object.injEq] at ho2
    subst ho2
    exact hne (headerNames_unique hn hn2)
  · intro t
    have hs := splitToken_encode E t
    obtain ⟨e, n1, n2⟩ := splitToken_some hs
    refine ⟨_, _, _, e, n1, n2, separator_not_mem_base64encode _, hs, ?_⟩
    rw [base64encode_eq_nil]
    exact encrypt_eq_nil_iff hdigest t _

set_option maxRecDepth 1000000 in
theorem empty_signature_only_none_witness :
    (∀ m x, refCollaborators.hash m x ≠ []) ∧
    (JsonWebToken.decode refCollaborators ⟨.Hs256, ascii "secret", QJsonObject.empty⟩
      (ascii "eyJhbGciOiJIUzI1NiIsInR5cCI6IkpXVCJ9" ++
        TokenSeparator :: (ascii "eyJhIjoxfQ" ++ [TokenSeparator]))).1 = false ∧
    (∃ h p s : QByteArray,
      JsonWebToken.encode refCollaborators ⟨.None, ascii "secret", exampleClaims⟩ =
        h ++ TokenSeparator :: (p ++ TokenSeparator :: s) ∧
      TokenSeparator ∉ h ∧ TokenSeparator ∉ p ∧ TokenSeparator ∉ s ∧
      splitToken (JsonWebToken.encode refCollaborators ⟨.None, ascii "secret", exampleClaims⟩) =
        some (h, p, s) ∧
      (s = [] ↔ Algorithm.None = Algorithm.None)) ∧
    splitToken (JsonWebToken.encode refCollaborators ⟨.None, ascii "secret", exampleClaims⟩) =
      some (ascii "eyJhbGciOiJub25lIiwidHlwIjoiSldUIn0",
        ascii "eyJhZG1pbiI6dHJ1ZSwibmFtZSI6IkpvaG4gRG9lIiwic3ViIjoiMTIzNDU2Nzg5MCJ9", []) ∧
    splitToken (JsonWebToken.encode refCollaborators ⟨.Hs256, ascii "secret", exampleClaims⟩) =
      some (ascii "eyJhbGciOiJIUzI1NiIsInR5cCI6IkpXVCJ9",
        ascii "eyJhZG1pbiI6dHJ1ZSwibmFtZSI6IkpvaG4gRG9lIiwic3ViIjoiMTIzNDU2Nzg5MCJ9",
        ascii "eNK_fimsCW3Q-meOXyc_dnZHubl2D4eZkIcn6llniCk") ∧
    (JsonWebToken.decode refCollaborators ⟨.Hs256, ascii "secret", QJsonObject.empty⟩
      (JsonWebToken.encode refCollaborators ⟨.None, ascii "secret", exampleClaims⟩)).2.m_algorithm =
        .None :=
  ⟨refHash_ne_nil,
    (empty_signature_only_none refCollaborators refHash_ne_nil).2.1
      ⟨.Hs256, ascii "secret", QJsonObject.empty⟩ (ascii "eyJhbGciOiJIUzI1NiIsInR5cCI6IkpXVCJ9")
      (ascii "eyJhIjoxfQ") (headerObject .Hs256) .Hs256 (by decide) (by decide) rfl
      (headerNames_headerObject .Hs256) (by decide),
    (empty_signature_only_none refCollaborators refHash_ne_nil).2.2
      ⟨.None, ascii "secret", exampleClaims⟩,
    by decide, by decide,
    ((empty_signature_only_none refCollaborators refHash_ne_nil).1
      ⟨.Hs256, ascii "secret", QJsonObject.empty⟩
      (JsonWebToken.encode refCollaborators ⟨.None, ascii "secret", exampleClaims⟩)
      (ascii "eyJhbGciOiJub25lIiwidHlwIjoiSldUIn0")
      (ascii "eyJhZG1pbiI6dHJ1ZSwibmFtZSI6IkpvaG4gRG9lIiwic3ViIjoiMTIzNDU2Nzg5MCJ9")
      rfl (by decide)).2⟩

theorem accepted_token_three_segments_witness :
    (JsonWebToken.decode refCollaborators ⟨.None, [], QJsonObject.empty⟩
      (ascii "eyJhbGciOiJub25lIiwidHlwIjoiSldUIn0.eyJhIjoxfQ.")).1 = true ∧
    separatorCount (ascii "eyJhbGciOiJub25lIiwidHlwIjoiSldUIn0.eyJhIjoxfQ.") = 2 ∧
    (JsonWebToken.decode refCollaborators ⟨.None, [], QJsonObject.empty⟩
      (ascii "eyJhbGciOiJub25lIiwidHlwIjoiSldUIn0.eyJhIjoxfQ..")).1 = false ∧
    (JsonWebToken.decode refCollaborators ⟨.Hs256, ascii "secret", QJsonObject.empty⟩
      (ascii ("eyJhbGciOiJIUzI1NiIsInR5cCI6IkpXVCJ9." ++
        "eyJhZG1pbiI6dHJ1ZSwibmFtZSI6IkpvaG4gRG9lIiwic3ViIjoiMTIzNDU2Nzg5MCJ9." ++
        "eNK_fimsCW3Q-meOXyc_dnZHubl2D4eZkIcn6llniCk="))).1 = false :=
  ⟨by decide,
    ((accepted_token_three_segments refCollaborators ⟨.None, [], QJsonObject.empty⟩
      (ascii "eyJhbGciOiJub25lIiwidHlwIjoiSldUIn0.eyJhIjoxfQ.")).1 (by decide)).1,
    (accepted_token_three_segments refCollaborators ⟨.None, [], QJsonObject.empty⟩
      (ascii "eyJhbGciOiJub25lIiwidHlwIjoiSldUIn0.eyJhIjoxfQ..")).2.1 (by decide),
    (accepted_token_three_segments refCollaborators ⟨.Hs256, ascii "secret", QJsonObject.empty⟩
      (ascii ("eyJhbGciOiJIUzI1NiIsInR5cCI6IkpXVCJ9." ++
        "eyJhZG1pbiI6dHJ1ZSwibmFtZSI6IkpvaG4gRG9lIiwic3ViIjoiMTIzNDU2Nzg5MCJ9." ++
        "eNK_fimsCW3Q-meOXyc_dnZHubl2D4eZkIcn6llniCk="))).2.2
      (ascii "eyJhbGciOiJIUzI1NiIsInR5cCI6IkpXVCJ9")
      (ascii "eyJhZG1pbiI6dHJ1ZSwibmFtZSI6IkpvaG4gRG9lIiwic3ViIjoiMTIzNDU2Nzg5MCJ9")
      (ascii "eNK_fimsCW3Q-meOXyc_dnZHubl2D4eZkIcn6llniCk=") (by decide) (by decide)⟩

/-- C16, as amended. In a token with at least two separators, a byte outside
the base64url alphabet in the signature segment makes `decode` return false.
In the header and payload segments such a byte is skipped by the base64
decoder: the header phase and the payload phase give the same result as for
the segment without those bytes, so the byte is not by itself a cause of
failure. -/
theorem invalid_base64_in_signature_rejected (E : Collaborators) (t : JsonWebToken)
    (token h p s : QByteArray) (hs : splitToken token = some (h, p, s)) :
    ((∃ x ∈ s, isBase64urlChar x = false) → (t.decode E token).1 = false) ∧
    base64decode (h.filter isBase64urlChar) = base64decode h ∧
    base64decode (p.filter isBase64urlChar) = base64decode p ∧
    t.decodeHeader E (h.filter isBase64urlChar) = t.decodeHeader E h ∧
    t.decodePayload E (p.filter isBase64urlChar) = t.decodePayload E p := by
  refine ⟨?_, base64decode_filter h, base64decode_filter p, ?_, ?_⟩
  · rintro ⟨x, hx, hbad⟩
    by_contra hc
    have hd : (t.decode E token).1 = true := by simpa using hc
    obtain ⟨h2, p2, s2, a, hsplit, _, _, hsig, _⟩ := decode_true_inv hd
    rw [hs] at hsplit
    simp only [Option.some.injEq, Prod.mk.injEq] at hsplit
    obtain ⟨rfl, rfl, rfl⟩ := hsplit
    rw [← hsig] at hx
    have := base64encode_alphabet _ x hx
    rw [hbad] at this
    exact Bool.noConfusion this
  · unfold JsonWebToken.decodeHeader
    rw [base64decode_filter]
  · unfold JsonWebToken.decodePayload
    rw [base64decode_filter]

theorem invalid_base64_in_signature_rejected_witness :
    splitToken (ascii "eyJhbGciOiJub25lIiwidHlwIjoiSldUIn0.e30.!") =
      some (ascii "eyJhbGciOiJub25lIiwidHlwIjoiSldUIn0", ascii "e30", ascii "!") ∧
    (∃ x ∈ ascii "!", isBase64urlChar x = false) ∧
    (JsonWebToken.decode refCollaborators ⟨.None, [], QJsonObject.empty⟩
      (ascii "eyJhbGciOiJub25lIiwidHlwIjoiSldUIn0.e30.!")).1 = false :=
  ⟨by decide, ⟨33, by decide, by decide⟩,
    (invalid_base64_in_signature_rejected refCollaborators ⟨.None, [], QJsonObject.empty⟩
      (ascii "eyJhbGciOiJub25lIiwidHlwIjoiSldUIn0.e30.!")
      (ascii "eyJhbGciOiJub25lIiwidHlwIjoiSldUIn0") (ascii "e30") (ascii "!") (by decide)).1
      ⟨33, by decide, by decide⟩⟩

set_option maxRecDepth 100000 in
/-- C16 fails as stated: `base64decode` has no error result and skips the
bytes it does not know. The token `eyJhbGciOiJub25l!IiwidHlwIjoiSldUIn0.e30!.`
has a `!`, which is not in the base64url alphabet, in its header segment and
in its payload segment, and `decode` accepts it. A signature does not change
that: with HS256, the same header segment for HS256 is accepted when the
signature is the code of the text that holds the `!`. -/
theorem invalid_base64_accepted :
    isBase64urlChar 33 = false ∧
    splitToken (ascii "eyJhbGciOiJub25l!IiwidHlwIjoiSldUIn0.e30!.") =
      some (ascii "eyJhbGciOiJub25l!IiwidHlwIjoiSldUIn0", ascii "e30!", []) ∧
    (33 : Byte) ∈ ascii "eyJhbGciOiJub25l!IiwidHlwIjoiSldUIn0" ∧
    (33 : Byte) ∈ ascii "e30!" ∧
    JsonWebToken.decode refCollaborators ⟨.None, [], exampleClaims⟩
        (ascii "eyJhbGciOiJub25l!IiwidHlwIjoiSldUIn0.e30!.") =
      (true, ⟨.None, [], QJsonObject.empty⟩) ∧
    JsonWebToken.decode refCollaborators ⟨.Hs256, ascii "secret", exampleClaims⟩
        (ascii "eyJhbGciOiJIUzI1!NiIsInR5cCI6IkpXVCJ9" ++ TokenSeparator ::
          (ascii "e30" ++ TokenSeparator ::
            base64encode (JsonWebToken.encrypt refCollaborators
              ⟨.Hs256, ascii "secret", QJsonObject.empty⟩
              (ascii "eyJhbGciOiJIUzI1!NiIsInR5cCI6IkpXVCJ9" ++ TokenSeparator :: ascii "e30")))) =
      (true, ⟨.Hs256, ascii "secret", QJsonObject.empty⟩) := by
  refine ⟨by decide, by decide, by decide, by decide, rfl, ?_⟩
  have n1 : TokenSeparator ∉ ascii "eyJhbGciOiJIUzI1!NiIsInR5cCI6IkpXVCJ9" := by decide
  have n2 : TokenSeparator ∉ ascii "e30" := by decide
  have hhead : headerAlgorithm refCollaborators (ascii "eyJhbGciOiJIUzI1!NiIsInR5cCI6IkpXVCJ9") =
      some .Hs256 := by decide
  have hpay : parseJson refCollaborators (base64decode (ascii "e30")) =
      (QJsonObject.empty, true) := rfl
  rw [decode_eq, splitToken_segments _ n1 n2]
  simp only [decodePhases_eq, hhead, hpay, if_true, decide_True]

/-- C12. `addClaim` inserts or overwrites. After `addClaim(n, v)` with a value
`v` of any JSON type, `claim(n)` returns `v`, `contains(n)` is true and
`claims()` lists `n` exactly once; for every other name `m`, `claim(m)` and
`contains(m)` are as before; a later `addClaim(n, w)` makes `claim(n)` return
`w`; and for a name that is not present `claim` returns the undefined value
and `contains` returns false. The claim set is assumed to be in key order,
as every `QJsonObject` is; `addClaim` keeps it so and changes neither the
algorithm nor the key. -/
theorem addClaim_inserts_or_overwrites (t : JsonWebToken) (n : String) (v w : QJsonValue)
    (hv : v.isUndefined = false) (hwf : t.m_claims.WellFormed) :
    (t.addClaim n v).claim n = v ∧
    (t.addClaim n v).contains n = true ∧
    (t.addClaim n v).claims.count n = 1 ∧
    (∀ m, m ≠ n →
      (t.addClaim n v).claim m = t.claim m ∧ (t.addClaim n v).contains m = t.contains m) ∧
    ((t.addClaim n v).addClaim n w).claim n = w ∧
    (∀ m, m ∉ t.claims → t.claim m = .undefined ∧ t.contains m = false) ∧
    (t.addClaim n v).m_claims.WellFormed ∧
    (t.addClaim n v).m_algorithm = t.m_algorithm ∧ (t.addClaim n v).m_key = t.m_key := by
  have hins : t.m_claims.insert n v = ⟨insertEntry n v t.m_claims.members⟩ := by
    unfold QJsonObject.insert
    simp only [hv, Bool.false_eq_true, if_false]
  refine ⟨value_insert_self _ n v, ?_, ?_, ?_, value_insert_self _ n w, ?_,
    wellFormed_insert hwf n v, rfl, rfl⟩
  · simp only [JsonWebToken.contains, JsonWebToken.addClaim, contains_eq_find, hins,
      find_insertEntry_self, Option.isSome_some]
  · simp only [JsonWebToken.claims, JsonWebToken.addClaim, QJsonObject.keys, hins]
    exact count_insertEntry n v hwf
  · intro m hm
    refine ⟨value_insert_other _ hm v hv, ?_⟩
    simp only [JsonWebToken.contains, JsonWebToken.addClaim, contains_eq_find, hins,
      find_insertEntry_other hm]
  · intro m hm
    have hnone := find_eq_none_of_not_mem_keys hm
    refine ⟨?_, ?_⟩
    · simp only [JsonWebToken.claim, QJsonObject.value, hnone]
    · simp only [JsonWebToken.contains, contains_eq_find, hnone, Option.isSome_none]

theorem addClaim_inserts_or_overwrites_witness :
    (QJsonValue.string "me").isUndefined = false ∧
    exampleClaims.WellFormed ∧
    (JsonWebToken.addClaim ⟨.None, [], exampleClaims⟩ "iss" (.string "me")).claim "iss" =
      .string "me" ∧
    (JsonWebToken.addClaim ⟨.None, [], exampleClaims⟩ "iss" (.string "me")).contains "iss" =
      true ∧
    (JsonWebToken.addClaim ⟨.None, [], exampleClaims⟩ "iss" (.string "me")).claims =
      ["admin", "iss", "name", "sub"] ∧
    (JsonWebToken.addClaim ⟨.None, [], exampleClaims⟩ "admin" (.null)).claims =
      ["admin", "name", "sub"] ∧
    (JsonWebToken.addClaim ⟨.None, [], exampleClaims⟩ "admin" (.null)).claim "admin" = .null ∧
    JsonWebToken.claim ⟨.None, [], exampleClaims⟩ "iss" = .undefined ∧
    JsonWebToken.contains ⟨.None, [], exampleClaims⟩ "iss" = false :=
  ⟨rfl, by decide,
    (addClaim_inserts_or_overwrites ⟨.None, [], exampleClaims⟩ "iss" (.string "me") .null rfl
      (by decide)).1,
    (addClaim_inserts_or_overwrites ⟨.None, [], exampleClaims⟩ "iss" (.string "me") .null rfl
      (by decide)).2.1,
    by decide, by decide,
    (addClaim_inserts_or_overwrites ⟨.None, [], exampleClaims⟩ "admin" .null .null rfl
      (by decide)).1,
    ((addClaim_inserts_or_overwrites ⟨.None, [], exampleClaims⟩ "iss" (.string "me") .null rfl
      (by decide)).2.2.2.2.2.1 "iss" (by decide)).1,
    ((addClaim_inserts_or_overwrites ⟨.None, [], exampleClaims⟩ "iss" (.string "me") .null rfl
      (by decide)).2.2.2.2.2.1 "iss" (by decide)).2⟩

end JWT
